import Mathlib

/-! # vdl-exporter: collection engine and parsing utilities

A shallow embedding of the Go sources `utils/utils.go`, `packages/packages.go`,
`ports/ports.go` and `collector/collector.go`.

Go strings are modelled as lists of characters (`Str`).  The functions of the Go
standard library that the sources call (`strings.Split`, `strings.Contains`,
`strings.TrimPrefix`, ...) are modelled in the namespace `strings` after their
documented behaviour.
-/

set_option autoImplicit false

/-- Go `string`, as the list of its characters. -/
abbrev Str := List Char

namespace strings

/-- Go `strings.HasPrefix(s, pre)`. -/
def HasPrefix (s pre : Str) : Bool := pre.isPrefixOf s

/-- Go `strings.HasSuffix(s, suf)`. -/
def HasSuffix (s suf : Str) : Bool := suf.reverse.isPrefixOf s.reverse

/-- Go `strings.Index(s, sep)`: position of the leftmost occurrence of `sep` in `s`,
`none` standing for the result `-1`. -/
def Index : Str → Str → Option Nat
  | [], sep => if sep.isPrefixOf [] then some 0 else none
  | c :: t, sep => if sep.isPrefixOf (c :: t) then some 0 else (Index t sep).map (· + 1)

/-- Go `strings.Contains(s, sub)`, which is `Index(s, sub) >= 0`. -/
def Contains (s sub : Str) : Bool := (Index s sub).isSome

/-- Go `strings.TrimPrefix(s, pre)`. -/
def TrimPrefix (s pre : Str) : Str := if HasPrefix s pre then s.drop pre.length else s

/-- Go `strings.TrimSuffix(s, suf)`. -/
def TrimSuffix (s suf : Str) : Str :=
  if HasSuffix s suf then s.take (s.length - suf.length) else s

/-- Go `strings.Trim(s, cutset)`: all leading and trailing characters of `cutset` removed. -/
def Trim (s cutset : Str) : Str :=
  ((s.dropWhile (fun c => decide (c ∈ cutset))).reverse.dropWhile
    (fun c => decide (c ∈ cutset))).reverse

/-- The loop of Go `strings.genSplit` for a non-empty separator: at most `n` cuts, each at
the leftmost occurrence of `sep` in what remains. -/
def genSplit (sep : Str) : Nat → Str → List Str
  | 0, s => [s]
  | n + 1, s =>
    match Index s sep with
    | none => [s]
    | some m => s.take m :: genSplit sep n (s.drop (m + sep.length))

/-- Go `strings.Split(s, sep)` for a non-empty separator.  Go bounds the number of cuts by
`Count(s, sep)`, itself at most `len(s)`; the bound used here is `len(s)`. -/
def Split (s sep : Str) : List Str := genSplit sep s.length s

/-- Go `unicode.IsSpace`. -/
def isSpace (c : Char) : Bool :=
  c.toNat = 9 || c.toNat = 10 || c.toNat = 11 || c.toNat = 12 || c.toNat = 13 ||
  c.toNat = 32 || c.toNat = 0x85 || c.toNat = 0xA0 || c.toNat = 0x1680 ||
  (0x2000 ≤ c.toNat && c.toNat ≤ 0x200A) || c.toNat = 0x2028 || c.toNat = 0x2029 ||
  c.toNat = 0x202F || c.toNat = 0x205F || c.toNat = 0x3000

/-- Go `strings.TrimSpace(s)`: all leading and trailing white space removed. -/
def TrimSpace (s : Str) : Str := ((s.dropWhile isSpace).reverse.dropWhile isSpace).reverse

end strings

namespace filepath

/-- Go `filepath.Base(path)` on a system whose path separator is `/`: the last element of
the path, trailing separators removed first; `.` for the empty path and `/` for a path
made of separators only. -/
def Base (path : Str) : Str :=
  if path = [] then ['.']
  else
    let stripped := (path.reverse.dropWhile (fun c => c = '/')).reverse
    let last := (stripped.reverse.takeWhile (fun c => c ≠ '/')).reverse
    if last = [] then ['/'] else last

end filepath

namespace utils

/-- `ParseAddressPort` of `utils/utils.go`. -/
def ParseAddressPort (addrPort : Str) : Str × Str :=
  if strings.Contains addrPort ['['] then
    let parts := strings.Split addrPort [']', ':']
    match parts with
    | [p0, p1] => (strings.TrimPrefix p0 ['['], p1)
    | _ => ([], [])
  else
    let parts := strings.Split addrPort [':']
    match parts with
    | [p0, p1] => (p0, p1)
    | _ => ([], [])

/-- The body of the loop of `ParsePIDProcess` over the comma-separated parts: `acc` holds
the variables `pid` and `process`. -/
def parsePart (acc : Str × Str) (part : Str) : Str × Str :=
  if strings.Contains part ['p', 'i', 'd', '='] then
    (strings.Trim (strings.TrimPrefix part ['p', 'i', 'd', '=']) ['"'], acc.2)
  else if strings.Contains part ['e', 'x', 'e', '='] then
    (acc.1, filepath.Base (strings.Trim (strings.TrimPrefix part ['e', 'x', 'e', '=']) ['"']))
  else acc

/-- The envelope `users:(` that `ParsePIDProcess` strips. -/
def usersEnvelope : Str := ['u', 's', 'e', 'r', 's', ':', '(']

/-- `ParsePIDProcess` of `utils/utils.go`. -/
def ParsePIDProcess (pidProc : Str) : Str × Str :=
  if pidProc = ['-'] ∨ pidProc = [] then ([], [])
  else
    let pidProc :=
      if strings.HasPrefix pidProc usersEnvelope then
        strings.TrimSuffix (strings.TrimPrefix pidProc usersEnvelope) [')']
      else pidProc
    (strings.Split pidProc [',']).foldl parsePart ([], [])

end utils

/-! ## Gauge vectors -/

/-- The label values of one gauge entry. -/
abbrev Labels := List Str

/-- A `prometheus.GaugeVec`: one value per distinct tuple of label values, kept in the
order of first insertion. -/
abbrev GaugeVec := List (Labels × Nat)

namespace GaugeVec

/-- `GaugeVec.Reset()`: every entry is deleted. -/
def Reset (_ : GaugeVec) : GaugeVec := []

/-- `GaugeVec.WithLabelValues(lvs...).Set(v)`: the entry of `lvs` is created when absent,
and its value becomes `v`. -/
def Set (g : GaugeVec) (lvs : Labels) (v : Nat) : GaugeVec :=
  if g.any (fun e => decide (e.1 = lvs)) then
    g.map (fun e => if e.1 = lvs then (lvs, v) else e)
  else g ++ [(lvs, v)]

/-- The value the gauge holds for `lvs`, `none` when it has no such entry. -/
def Get (g : GaugeVec) (lvs : Labels) : Option Nat :=
  (g.find? (fun e => decide (e.1 = lvs))).map Prod.snd

/-- The label tuples the gauge has an entry for. -/
def keys (g : GaugeVec) : List Labels := g.map Prod.fst

/-- The loop body `f` writes the value `1` for exactly the label tuples `K a`. -/
def SetsKeys {α : Type} (f : GaugeVec → α → GaugeVec) (K : α → Labels → Prop) : Prop :=
  ∀ (g : GaugeVec) (a : α),
    (∀ e, e ∈ f g a ↔ (e.2 = 1 ∧ K a e.1) ∨ (e ∈ g ∧ ¬ K a e.1)) ∧
    ((keys g).Nodup → (keys (f g a)).Nodup)

end GaugeVec

/-! ## Data sources and collector state -/

/-- A Go `error` value. -/
structure Error where
  msg : String
  deriving DecidableEq, Repr

/-- `net.ConnectionStat` of gopsutil, restricted to the fields `collectOpenPorts` reads. -/
structure ConnectionStat where
  type : Nat
  laddrIP : Str
  laddrPort : Nat
  pid : Int
  deriving DecidableEq, Repr

/-- `config.Config`, restricted to the field the collectors read. -/
structure Config where
  ExcludePackages : List Str

/-- The answers of the external data sources during one pass. -/
structure Sources where
  /-- `exec.LookPath(tool)` succeeds. -/
  lookPath : Str → Bool
  /-- `cmd.Output()` of the package tool. -/
  output : Str → Except Error Str
  /-- `net.Connections("all")`. -/
  connections : Except Error (List ConnectionStat)
  /-- `process.NewProcess(pid)` followed by `proc.Name()`; `none` when either fails. -/
  processName : Int → Option Str
  /-- The error of `dbus.SystemBus()`, `none` when the connection succeeds. -/
  systemBus : Option Error
  /-- The call of `getZones` on the firewall service. -/
  getZones : Except Error (List Str)
  /-- The call of `zone.listPorts` on the firewall service. -/
  listPorts : Str → Except Error (List Str)

/-- A query sent to a data source. -/
inductive Query where
  | lookPath (tool : Str)
  | run (tool : Str)
  | connections
  | systemBus
  | getZones
  | listPorts (zone : Str)
  deriving DecidableEq, Repr

/-- The three gauge vectors of the process, with the sequence of queries sent so far to
the package tool, the connection table and the firewall bus. -/
structure State where
  packageInstalledGauge : GaugeVec
  portsOpenGauge : GaugeVec
  portsAuthorizedGauge : GaugeVec
  queries : List Query
  deriving DecidableEq

/-- Record that a query is sent. -/
def State.ask (st : State) (q : Query) : State := { st with queries := st.queries ++ [q] }

/-- The three gauge vectors of a state. -/
def State.gauges (st : State) : GaugeVec × GaugeVec × GaugeVec :=
  (st.packageInstalledGauge, st.portsOpenGauge, st.portsAuthorizedGauge)

/-- Go `fmt.Sprintf("%d", n)`. -/
def fmtD (n : Int) : Str := (toString n).toList

/-- The tool name `rpm`. -/
def rpm : Str := ['r', 'p', 'm']

/-- The tool name `dpkg-query`. -/
def dpkgQuery : Str := ['d', 'p', 'k', 'g', '-', 'q', 'u', 'e', 'r', 'y']

namespace packages

/-- `PackageCollector.Reset`. -/
def Reset (st : State) : State :=
  { st with packageInstalledGauge := GaugeVec.Reset st.packageInstalledGauge }

/-- The lines `collectRPMPackages` and `collectDPKGPackages` iterate over:
`strings.Split(strings.TrimSpace(string(output)), "\n")`. -/
def outputLines (output : Str) : List Str := strings.Split (strings.TrimSpace output) ['\n']

/-- The body of the loop over the lines, the same in `collectRPMPackages` and in
`collectDPKGPackages`. -/
def recordLine (cfg : Config) (g : GaugeVec) (line : Str) : GaugeVec :=
  if line = [] then g
  else
    match strings.Split line ['|'] with
    | [name, version] =>
      if name ∈ cfg.ExcludePackages then g else GaugeVec.Set g [name, version] 1
    | _ => g

/-- `PackageCollector.collectRPMPackages`. -/
def collectRPMPackages (cfg : Config) (w : Sources) (st : State) : State × Option Error :=
  let st := st.ask (.run rpm)
  match w.output rpm with
  | .error err => (st, some err)
  | .ok output =>
    ({ st with packageInstalledGauge :=
        (outputLines output).foldl (recordLine cfg) st.packageInstalledGauge }, none)

/-- `PackageCollector.collectDPKGPackages`. -/
def collectDPKGPackages (cfg : Config) (w : Sources) (st : State) : State × Option Error :=
  let st := st.ask (.run dpkgQuery)
  match w.output dpkgQuery with
  | .error err => (st, some err)
  | .ok output =>
    ({ st with packageInstalledGauge :=
        (outputLines output).foldl (recordLine cfg) st.packageInstalledGauge }, none)

/-- `PackageCollector.Collect`. -/
def Collect (cfg : Config) (w : Sources) (st : State) : State × Option Error :=
  let st := st.ask (.lookPath rpm)
  if w.lookPath rpm then collectRPMPackages cfg w st
  else
    let st := st.ask (.lookPath dpkgQuery)
    if w.lookPath dpkgQuery then collectDPKGPackages cfg w st
    else (st, none)

end packages

namespace ports

/-- `PortCollector.Reset`. -/
def Reset (st : State) : State :=
  { st with
    portsOpenGauge := GaugeVec.Reset st.portsOpenGauge,
    portsAuthorizedGauge := GaugeVec.Reset st.portsAuthorizedGauge }

/-- `getProtocolType`. -/
def getProtocolType (protocol : Nat) : Str :=
  if protocol = 1 then ['t', 'c', 'p']
  else if protocol = 2 then ['u', 'd', 'p']
  else ['u', 'n', 'k', 'n', 'o', 'w', 'n']

/-- `getProcessName`. -/
def getProcessName (w : Sources) (pid : Int) : Str :=
  if pid = 0 then []
  else
    match w.processName pid with
    | none => []
    | some name => name

/-- The label values `collectOpenPorts` writes for one connection. -/
def openLabels (w : Sources) (conn : ConnectionStat) : Labels :=
  [getProtocolType conn.type, fmtD conn.laddrPort, conn.laddrIP, fmtD conn.pid,
    getProcessName w conn.pid, []]

/-- `PortCollector.collectOpenPorts`. -/
def collectOpenPorts (w : Sources) (st : State) : State × Option Error :=
  let st := st.ask .connections
  match w.connections with
  | .error err => (st, some err)
  | .ok connections =>
    let record := fun (g : GaugeVec) (conn : ConnectionStat) => GaugeVec.Set g (openLabels w conn) 1
    ({ st with portsOpenGauge := connections.foldl record st.portsOpenGauge }, none)

/-- `getFirewallZones`. -/
def getFirewallZones (w : Sources) (st : State) : State × Except Error (List Str) :=
  let st := st.ask .systemBus
  match w.systemBus with
  | some err => (st, .error err)
  | none => (st.ask .getZones, w.getZones)

/-- `getPortsForZone`. -/
def getPortsForZone (w : Sources) (zone : Str) (st : State) : State × Except Error (List Str) :=
  let st := st.ask .systemBus
  match w.systemBus with
  | some err => (st, .error err)
  | none => (st.ask (.listPorts zone), w.listPorts zone)

/-- `splitPortProtocol`. -/
def splitPortProtocol (portProto : Str) : List Str := strings.Split portProto ['/']

/-- The body of the inner loop of `collectAuthorizedPorts`, over the entries of a zone. -/
def recordPort (zone : Str) (g : GaugeVec) (portProto : Str) : GaugeVec :=
  match splitPortProtocol portProto with
  | [port, protocol] => GaugeVec.Set g [port, protocol, zone] 1
  | _ => g

/-- The body of the outer loop of `collectAuthorizedPorts`, over the zones. -/
def recordZone (w : Sources) (st : State) (zone : Str) : State :=
  match getPortsForZone w zone st with
  | (st, .error _) => st
  | (st, .ok ports) =>
    { st with portsAuthorizedGauge := ports.foldl (recordPort zone) st.portsAuthorizedGauge }

/-- `PortCollector.collectAuthorizedPorts`. -/
def collectAuthorizedPorts (w : Sources) (st : State) : State × Option Error :=
  match getFirewallZones w st with
  | (st, .error err) => (st, some err)
  | (st, .ok zones) => (zones.foldl (recordZone w) st, none)

/-- `PortCollector.Collect`: the two errors are logged and dropped. -/
def Collect (w : Sources) (st : State) : State × Option Error :=
  let st := (collectOpenPorts w st).1
  let st := (collectAuthorizedPorts w st).1
  (st, none)

end ports

namespace collector

/-- `Collector.Collect`, between `c.mu.Lock()` and the deferred `c.mu.Unlock()`. -/
def Collect (cfg : Config) (w : Sources) (st : State) : State × Option Error :=
  let st := packages.Reset st
  let st := ports.Reset st
  match packages.Collect cfg w st with
  | (st, some err) => (st, some err)
  | (st, none) =>
    match ports.Collect w st with
    | (st, some err) => (st, some err)
    | (st, none) => (st, none)

end collector

/-! ## Descriptors of the process owning a socket -/

/-- A value, wrapped in double quotes when `q` holds. -/
def quoted (q : Bool) (x : Str) : Str := if q then ['"'] ++ x ++ ['"'] else x

/-- The descriptor `pid=N,exe=P`, each value quoted or not. -/
def pidExeDescriptor (qn qe : Bool) (N P : Str) : Str :=
  ['p', 'i', 'd', '='] ++ quoted qn N ++ [','] ++ (['e', 'x', 'e', '='] ++ quoted qe P)

/-! ## The sets of records the specification describes -/

/-- The output of a tool that prints the given lines, a newline between two lines. -/
def packages.joinLines : List Str → Str
  | [] => []
  | [l] => l
  | l :: rest => l ++ '\n' :: packages.joinLines rest

/-- The label pair a line stands for: `k` is `[name, version]` where the line is
`name|version` with exactly one `|` and `name` is not excluded. -/
def packages.lineRecord (cfg : Config) (line : Str) (k : Labels) : Prop :=
  ∃ name version : Str, k = [name, version] ∧ line = name ++ ['|'] ++ version ∧
    line.count '|' = 1 ∧ name ∉ cfg.ExcludePackages

/-- The gauge `g` holds the value `1` for exactly the label pairs the lines stand for,
each in one entry. -/
def packages.RecordsExactly (cfg : Config) (lines : List Str) (g : GaugeVec) : Prop :=
  (∀ (k : Labels) (v : Nat), (k, v) ∈ g ↔ v = 1 ∧ ∃ line ∈ lines, packages.lineRecord cfg line k) ∧
  (GaugeVec.keys g).Nodup

/-- The label triple an entry of a zone stands for: `k` is `[port, protocol, zone]` where
the entry is `port/protocol` with exactly one `/`. -/
def ports.entryRecord (zone entry : Str) (k : Labels) : Prop :=
  ∃ port protocol : Str, k = [port, protocol, zone] ∧ entry = port ++ ['/'] ++ protocol ∧
    entry.count '/' = 1

/-- The label triples of a zone: its query succeeded and one of its entries stands for
`k`. -/
def ports.zoneRecord (w : Sources) (zone : Str) (k : Labels) : Prop :=
  ∃ entries : List Str, w.listPorts zone = .ok entries ∧
    ∃ entry ∈ entries, ports.entryRecord zone entry k

/-! ## What each collector does to its own gauge -/

/-- The package gauge after `PackageCollector.Collect`, from its value before. -/
def packages.gaugeAfter (cfg : Config) (w : Sources) (g : GaugeVec) : GaugeVec :=
  if w.lookPath rpm then
    match w.output rpm with
    | .error _ => g
    | .ok output => (packages.outputLines output).foldl (packages.recordLine cfg) g
  else if w.lookPath dpkgQuery then
    match w.output dpkgQuery with
    | .error _ => g
    | .ok output => (packages.outputLines output).foldl (packages.recordLine cfg) g
  else g

/-- The error `PackageCollector.Collect` returns. -/
def packages.errorOf (w : Sources) : Option Error :=
  if w.lookPath rpm then
    match w.output rpm with
    | .error err => some err
    | .ok _ => none
  else if w.lookPath dpkgQuery then
    match w.output dpkgQuery with
    | .error err => some err
    | .ok _ => none
  else none

/-- The open-ports gauge after `collectOpenPorts`, from its value before. -/
def ports.openGaugeAfter (w : Sources) (g : GaugeVec) : GaugeVec :=
  match w.connections with
  | .error _ => g
  | .ok connections =>
    connections.foldl (fun g conn => GaugeVec.Set g (ports.openLabels w conn) 1) g

/-- The authorized-ports gauge after one turn of the loop over the zones. -/
def ports.zoneGauge (w : Sources) (g : GaugeVec) (zone : Str) : GaugeVec :=
  match w.systemBus with
  | some _ => g
  | none =>
    match w.listPorts zone with
    | .error _ => g
    | .ok entries => entries.foldl (ports.recordPort zone) g

/-- The authorized-ports gauge after `collectAuthorizedPorts`, from its value before. -/
def ports.authorizedGaugeAfter (w : Sources) (g : GaugeVec) : GaugeVec :=
  match w.systemBus with
  | some _ => g
  | none =>
    match w.getZones with
    | .error _ => g
    | .ok zones => zones.foldl (ports.zoneGauge w) g

/-! ## A sample host -/

/-- A configuration that excludes the package `vim`. -/
def sampleConfig : Config := ⟨["vim".toList]⟩

/-- A host with `rpm`, two connections and a firewall with the zones `public` and `dmz`,
the query of `dmz` failing. -/
def sampleSources : Sources where
  lookPath := fun t => decide (t = rpm)
  output := fun _ => .ok "bash|5.1\nvim|9.0\nbad\nbash|5.1\n".toList
  connections := .ok [⟨1, "0.0.0.0".toList, 22, 100⟩, ⟨7, "::".toList, 53, 0⟩]
  processName := fun _ => some "sshd".toList
  systemBus := none
  getZones := .ok ["public".toList, "dmz".toList]
  listPorts := fun z =>
    if z = "dmz".toList then .error ⟨"no such zone"⟩
    else .ok ["8080/tcp".toList, "invalid".toList]

/-- The sample host, the package tool exiting with an error. -/
def failingToolSources : Sources := { sampleSources with output := fun _ => .error ⟨"exit status 1"⟩ }

/-- The sample host, the system bus being out of reach. -/
def firewallDownSources : Sources := { sampleSources with systemBus := some ⟨"no bus"⟩ }

/-- The sample host, the connection table being unreadable. -/
def noConnectionsSources : Sources := { sampleSources with connections := .error ⟨"denied"⟩ }

/-- The sample host, `rpm` printing the lines `b|2` and `a|1 `, the second one with a
space at its end. -/
def trailingSpaceLastSources : Sources :=
  { sampleSources with output := fun _ => .ok "b|2\na|1 \n".toList }

/-- The sample host, `rpm` printing the same two lines in the other order. -/
def trailingSpaceFirstSources : Sources :=
  { sampleSources with output := fun _ => .ok "a|1 \nb|2\n".toList }

/-- The state of a fresh process: empty gauges, no query sent. -/
def emptyState : State := ⟨[], [], [], []⟩

/-- A state whose gauges hold entries of an earlier pass. -/
def staleState : State :=
  ⟨[(["nano".toList, "7.2".toList], 1)],
    [(["tcp".toList, "80".toList, "0.0.0.0".toList, "1".toList, [], []], 1)],
    [(["443".toList, "tcp".toList, "public".toList], 1)], []⟩

/-! ## Goroutines around the mutex of the engine

`Collector.Collect` is called by the goroutine of `Collector.Start` at each tick and by
the handler of `/refresh`; every call runs `c.mu.Lock()`, the two resets, the package
step, the port step and the deferred `c.mu.Unlock()`.  The handler of `/metrics` is
`promhttp.Handler()`: it reads the gauges without taking `c.mu`.  The goroutines are
interleaved at the statements of `Collect`, each statement being one step. -/

namespace concurrent

/-- Where a goroutine that calls `Collector.Collect` stands. -/
inductive Pc where
  /-- Outside `Collect`, or waiting in `c.mu.Lock()`. -/
  | idle
  /-- `c.mu.Lock()` has returned. -/
  | locked
  /-- The two `Reset` calls have returned. -/
  | reset
  /-- `c.packageCollector.Collect()` has returned `nil`. -/
  | packagesDone
  /-- The result of `Collect` is known, the deferred `c.mu.Unlock()` has not yet run. -/
  | returning (err : Option Error)
  deriving DecidableEq

/-- The mutex `c.mu`, the gauges, and the position of every goroutine. -/
structure System where
  mu : Bool
  st : State
  pc : Nat → Pc

/-- A process in which no goroutine is inside `Collect`. -/
def init (st : State) : System := ⟨false, st, fun _ => Pc.idle⟩

/-- One step of goroutine `i`: the next statement of `Collector.Collect`.  A goroutine
that finds the mutex held stays where it is. -/
def step (cfg : Config) (w : Sources) (i : Nat) (s : System) : System :=
  match s.pc i with
  | .idle =>
    if s.mu then s else { s with mu := true, pc := Function.update s.pc i Pc.locked }
  | .locked =>
    { s with st := ports.Reset (packages.Reset s.st), pc := Function.update s.pc i Pc.reset }
  | .reset =>
    match packages.Collect cfg w s.st with
    | (st, some err) => { s with st := st, pc := Function.update s.pc i (Pc.returning (some err)) }
    | (st, none) => { s with st := st, pc := Function.update s.pc i Pc.packagesDone }
  | .packagesDone =>
    match ports.Collect w s.st with
    | (st, err) => { s with st := st, pc := Function.update s.pc i (Pc.returning err) }
  | .returning _ => { s with mu := false, pc := Function.update s.pc i Pc.idle }

/-- The process after the goroutines of the schedule took one step each, in order. -/
def run (cfg : Config) (w : Sources) (sched : List Nat) (s : System) : System :=
  sched.foldl (fun s i => step cfg w i s) s

/-- What a scrape of `/metrics` reads: the gauges as they stand. -/
def scrape (s : System) : GaugeVec × GaugeVec × GaugeVec := s.st.gauges

/-- What the gauges hold when a goroutine stands at `pc`, with `pre` their contents
before the first pass and `post` their contents after a pass. -/
def PcInv (cfg : Config) (w : Sources) (pre post : GaugeVec × GaugeVec × GaugeVec)
    (pc : Pc) (g : GaugeVec × GaugeVec × GaugeVec) : Prop :=
  match pc with
  | .idle => False
  | .locked => g = pre ∨ g = post
  | .reset => g = ([], [], [])
  | .packagesDone => packages.errorOf w = none ∧ g = (packages.gaugeAfter cfg w [], [], [])
  | .returning err => err = packages.errorOf w ∧ g = post

/-- The invariant of the process: either the mutex is free, no goroutine is inside
`Collect` and the gauges are complete, or the mutex is held and exactly one goroutine is
inside `Collect`. -/
def Inv (cfg : Config) (w : Sources) (pre post : GaugeVec × GaugeVec × GaugeVec)
    (s : System) : Prop :=
  (s.mu = false ∧ (∀ j, s.pc j = Pc.idle) ∧ (s.st.gauges = pre ∨ s.st.gauges = post)) ∨
  (s.mu = true ∧ ∃ i, (∀ j, j ≠ i → s.pc j = Pc.idle) ∧ PcInv cfg w pre post (s.pc i) s.st.gauges)

end concurrent

/-! ## Lemmas on the string functions -/

namespace strings

theorem Index_unfold (s sep : Str) :
    Index s sep =
      if sep.isPrefixOf s then some 0
      else match s with
        | [] => none
        | _ :: t => (Index t sep).map (· + 1) := by
  cases s <;> simp [Index]

theorem Index_of_isPrefix (s sep : Str) (h : sep <+: s) : Index s sep = some 0 := by
  rw [Index_unfold, if_pos ( List.isPrefixOf_iff_prefix.2 h)]

theorem Index_cons_of_not_isPrefix (c : Char) (t sep : Str) (h : ¬ sep <+: c :: t) :
    Index (c :: t) sep = (Index t sep).map (· + 1) := by
  rw [Index_unfold, if_neg (fun h' => h ( List.isPrefixOf_iff_prefix.1 h'))]

/-- `Index` finds nothing exactly when the separator does not occur. -/
theorem Index_eq_none_iff (s sep : Str) : Index s sep = none ↔ ¬ sep <:+: s := by
  induction s with
  | nil =>
    rw [Index_unfold]
    by_cases h : sep <+: []
    · simp [ List.isPrefixOf_iff_prefix.2 h, List.prefix_nil.1 h]
    · have h' : ¬ sep.isPrefixOf [] = true := fun e => h ( List.isPrefixOf_iff_prefix.1 e)
      have h2 : ¬ sep <:+: [] := fun hi => h (List.prefix_nil.2 (List.infix_nil.1 hi))
      simp [h', h2]
  | cons c t ih =>
    by_cases h : sep <+: c :: t
    · rw [Index_of_isPrefix _ _ h]
      simp [h.isInfix]
    · rw [Index_cons_of_not_isPrefix _ _ _ h, List.infix_cons_iff]
      simp [ih, h]

/-- The position `Index` returns is an occurrence of the separator. -/
theorem Index_some_isPrefix (s sep : Str) (m : Nat) (h : Index s sep = some m) :
    sep <+: s.drop m ∧ m ≤ s.length := by
  induction s generalizing m with
  | nil =>
    rw [Index_unfold] at h
    by_cases hp : sep.isPrefixOf [] = true
    · simp only [hp, if_true, Option.some.injEq] at h
      subst h
      exact ⟨ List.isPrefixOf_iff_prefix.1 hp, Nat.le_refl _⟩
    · simp [hp] at h
  | cons c t ih =>
    by_cases hp : sep <+: c :: t
    · rw [Index_of_isPrefix _ _ hp] at h
      cases h
      exact ⟨hp, Nat.zero_le _⟩
    · rw [Index_cons_of_not_isPrefix _ _ _ hp] at h
      cases hi : Index t sep with
      | none => simp [hi] at h
      | some k =>
        simp only [hi, Option.map_some', Option.some.injEq] at h
        subst h
        obtain ⟨h1, h2⟩ := ih k hi
        exact ⟨by simpa using h1, by simpa using h2⟩

/-- No occurrence of the separator starts before the position `Index` returns. -/
theorem Index_some_first (s sep : Str) (m : Nat) (h : Index s sep = some m) :
    ∀ k, k < m → ¬ sep <+: s.drop k := by
  induction s generalizing m with
  | nil =>
    intro k hk
    have := (Index_some_isPrefix _ _ _ h).2
    simp at this
    omega
  | cons c t ih =>
    by_cases hp : sep <+: c :: t
    · rw [Index_of_isPrefix _ _ hp] at h
      cases h
      intro k hk
      omega
    · rw [Index_cons_of_not_isPrefix _ _ _ hp] at h
      cases hi : Index t sep with
      | none => simp [hi] at h
      | some j =>
        simp only [hi, Option.map_some', Option.some.injEq] at h
        subst h
        intro k hk
        cases k with
        | zero => simpa using hp
        | succ k => simpa using ih j hi k (by omega)

/-- The string is cut around the occurrence `Index` returns. -/
theorem Index_some_eq (s sep : Str) (m : Nat) (h : Index s sep = some m) :
    s = s.take m ++ sep ++ s.drop (m + sep.length) := by
  obtain ⟨hp, _⟩ := Index_some_isPrefix s sep m h
  have h2 := List.prefix_iff_eq_append.1 hp
  rw [List.drop_drop] at h2
  conv_lhs => rw [← List.take_append_drop m s, ← h2]
  simp [Nat.add_comm]

theorem Index_some_length (s sep : Str) (m : Nat) (h : Index s sep = some m) :
    m + sep.length ≤ s.length := by
  obtain ⟨hp, hm⟩ := Index_some_isPrefix s sep m h
  have := hp.length_le
  simp at this
  omega

theorem Index_nil_of_ne_nil (sep : Str) (hsep : sep ≠ []) : Index [] sep = none := by
  rw [Index_eq_none_iff]
  intro h
  exact hsep (List.infix_nil.1 h)

theorem genSplit_nil (sep : Str) (hsep : sep ≠ []) (n : Nat) : genSplit sep n [] = [[]] := by
  cases n with
  | zero => rfl
  | succ n => simp [genSplit, Index_nil_of_ne_nil sep hsep]

/-- Once the bound on the number of cuts reaches the length of the string, it no longer
matters: the loop of `genSplit` stops by itself. -/
theorem genSplit_fuel (sep : Str) (hsep : sep ≠ []) :
    ∀ (n m : Nat) (s : Str), s.length ≤ n → s.length ≤ m →
      genSplit sep n s = genSplit sep m s := by
  intro n
  induction n with
  | zero =>
    intro m s hn _
    have hs : s = [] := List.length_eq_zero.1 (Nat.le_zero.1 hn)
    subst hs
    rw [genSplit_nil sep hsep, genSplit_nil sep hsep]
  | succ n ih =>
    intro m s hn hm
    cases m with
    | zero =>
      have hs : s = [] := List.length_eq_zero.1 (Nat.le_zero.1 hm)
      subst hs
      rw [genSplit_nil sep hsep, genSplit_nil sep hsep]
    | succ m =>
      cases hi : Index s sep with
      | none => simp [genSplit, hi]
      | some k =>
        have hlen : 0 < sep.length := List.length_pos.2 hsep
        simp only [genSplit, hi, List.cons.injEq, true_and]
        apply ih
        · simp only [List.length_drop]; omega
        · simp only [List.length_drop]; omega

theorem Split_of_Index_none (s sep : Str) (h : Index s sep = none) : Split s sep = [s] := by
  unfold Split
  cases s.length <;> simp [genSplit, h]

theorem Split_of_Index_some (s sep : Str) (hsep : sep ≠ []) (m : Nat)
    (h : Index s sep = some m) :
    Split s sep = s.take m :: Split (s.drop (m + sep.length)) sep := by
  have hlen : 0 < sep.length := List.length_pos.2 hsep
  have hle := Index_some_length s sep m h
  unfold Split
  obtain ⟨n, hn⟩ : ∃ n, s.length = n + 1 := ⟨s.length - 1, by omega⟩
  rw [hn]
  simp only [genSplit, h, List.cons.injEq, true_and]
  apply genSplit_fuel sep hsep
  · simp only [List.length_drop]; omega
  · exact Nat.le_refl _

theorem Split_ne_nil (s sep : Str) : Split s sep ≠ [] := by
  unfold Split
  cases s.length with
  | zero => simp [genSplit]
  | succ n =>
    cases hi : Index s sep <;> simp [genSplit, hi]

/-! ### One-character separators -/

theorem Index_single_eq_none_iff (s : Str) (c : Char) : Index s [c] = none ↔ c ∉ s := by
  rw [Index_eq_none_iff, not_iff_not]
  constructor
  · intro h
    exact h.subset (List.mem_singleton_self c)
  · intro h
    obtain ⟨a, b, rfl⟩ := List.append_of_mem h
    exact ⟨a, b, by simp⟩

theorem Index_single_append (a b : Str) (c : Char) (h : c ∉ a) :
    Index (a ++ c :: b) [c] = some a.length := by
  induction a with
  | nil => exact Index_of_isPrefix _ _ (by simp)
  | cons d t ih =>
    have hd : c ≠ d := fun e => h (by simp [e])
    have ht : c ∉ t := fun e => h (by simp [e])
    rw [List.cons_append, Index_cons_of_not_isPrefix _ _ _ (by simp [hd]), ih ht]
    simp

theorem Index_single_some_not_mem (s : Str) (c : Char) (m : Nat) (h : Index s [c] = some m) :
    c ∉ s.take m := by
  induction s generalizing m with
  | nil => simp
  | cons d t ih =>
    by_cases hp : [c] <+: d :: t
    · rw [Index_of_isPrefix _ _ hp] at h
      cases h
      simp
    · rw [Index_cons_of_not_isPrefix _ _ _ hp] at h
      cases hi : Index t [c] with
      | none => simp [hi] at h
      | some k =>
        simp only [hi, Option.map_some', Option.some.injEq] at h
        subst h
        have hd : c ≠ d := fun e => hp (by simp [e])
        simp [hd, ih k hi]

theorem Split_single_of_not_mem (s : Str) (c : Char) (h : c ∉ s) : Split s [c] = [s] :=
  Split_of_Index_none _ _ ((Index_single_eq_none_iff s c).2 h)

theorem Split_single_append (a b : Str) (c : Char) (h : c ∉ a) :
    Split (a ++ c :: b) [c] = a :: Split b [c] := by
  rw [Split_of_Index_some _ _ (by simp) _ (Index_single_append a b c h)]
  simp

theorem Split_eq_singleton (s sep : Str) (hsep : sep ≠ []) (b : Str) (h : Split s sep = [b]) :
    s = b ∧ Index s sep = none := by
  cases hi : Index s sep with
  | none =>
    rw [Split_of_Index_none _ _ hi] at h
    exact ⟨by simpa using h, rfl⟩
  | some m =>
    rw [Split_of_Index_some _ _ hsep _ hi] at h
    simp only [List.cons.injEq] at h
    exact absurd h.2 (Split_ne_nil _ _)

/-- `Split` gives exactly two parts when, and only when, the separator occurs exactly
once (leftmost occurrence, nothing left after it). -/
theorem Split_eq_pair (s sep : Str) (hsep : sep ≠ []) (a b : Str) (h : Split s sep = [a, b]) :
    ∃ m, Index s sep = some m ∧ a = s.take m ∧ b = s.drop (m + sep.length) ∧
      Index b sep = none ∧ s = a ++ sep ++ b := by
  cases hi : Index s sep with
  | none =>
    rw [Split_of_Index_none _ _ hi] at h
    simp at h
  | some m =>
    rw [Split_of_Index_some _ _ hsep _ hi] at h
    simp only [List.cons.injEq] at h
    obtain ⟨ha, hb⟩ := h
    obtain ⟨hb1, hb2⟩ := Split_eq_singleton _ _ hsep _ hb
    refine ⟨m, rfl, ha.symm, hb1.symm, ?_, ?_⟩
    · rw [← hb1]; exact hb2
    · rw [← ha, ← hb1]; exact Index_some_eq s sep m hi

theorem Split_single_eq_pair_iff (s : Str) (c : Char) (a b : Str) :
    Split s [c] = [a, b] ↔ s = a ++ c :: b ∧ c ∉ a ∧ c ∉ b := by
  constructor
  · intro h
    obtain ⟨m, hi, ha, _, hnone, hs⟩ := Split_eq_pair s [c] (by simp) a b h
    refine ⟨by simpa using hs, ?_, (Index_single_eq_none_iff b c).1 hnone⟩
    rw [ha]
    exact Index_single_some_not_mem s c m hi
  · rintro ⟨rfl, ha, hb⟩
    rw [Split_single_append a b c ha, Split_single_of_not_mem b c hb]

theorem count_eq_one_of_append (a b : Str) (c : Char) :
    (a ++ c :: b).count c = 1 ↔ c ∉ a ∧ c ∉ b := by
  rw [List.count_append, List.count_cons_self, ← List.count_eq_zero, ← List.count_eq_zero]
  omega

theorem Contains_iff (s sub : Str) : Contains s sub = true ↔ sub <:+: s := by
  unfold Contains
  rw [← not_iff_not, ← Index_eq_none_iff]
  cases Index s sub <;> simp

theorem Contains_single_iff (s : Str) (c : Char) : Contains s [c] = true ↔ c ∈ s := by
  unfold Contains
  rw [← not_iff_not, ← Index_single_eq_none_iff]
  cases Index s [c] <;> simp

theorem Contains_eq_false_iff (s sub : Str) : Contains s sub = false ↔ ¬ sub <:+: s := by
  rw [← Contains_iff]
  cases Contains s sub <;> simp

/-! ### The separator `]:` -/

theorem Index_bracketColon_append (a p : Str) (h : ¬ [']', ':'] <:+: a) :
    Index (a ++ ']' :: ':' :: p) [']', ':'] = some a.length := by
  induction a with
  | nil => exact Index_of_isPrefix _ _ (by simp)
  | cons d t ih =>
    have ht : ¬ [']', ':'] <:+: t := fun e => h (List.infix_cons e)
    have hp : ¬ [']', ':'] <+: d :: (t ++ ']' :: ':' :: p) := by
      intro hp
      cases t with
      | nil => simp at hp
      | cons e t2 =>
        simp only [List.cons_append, List.cons_prefix_cons] at hp
        apply h
        obtain ⟨h1, h2, _⟩ := hp
        subst h1
        subst h2
        exact ⟨[], t2, by simp⟩
    rw [List.cons_append, Index_cons_of_not_isPrefix _ _ _ hp, ih ht]
    simp

theorem Split_bracketColon (a p : Str) (ha : ¬ [']', ':'] <:+: a) (hp : ¬ [']', ':'] <:+: p) :
    Split (a ++ ']' :: ':' :: p) [']', ':'] = [a, p] := by
  rw [Split_of_Index_some _ _ (by simp) _ (Index_bracketColon_append a p ha)]
  have h1 : List.drop (a.length + [']', ':'].length) (a ++ ']' :: ':' :: p) = p := by
    have : a ++ ']' :: ':' :: p = (a ++ [']', ':']) ++ p := by simp
    rw [this, List.drop_left' (by simp)]
  rw [h1, Split_of_Index_none _ _ ((Index_eq_none_iff _ _).2 hp)]
  simp

end strings

namespace utils

theorem ParseAddressPort_ipv4 (a p : Str) (ha : ':' ∉ a) (ha2 : '[' ∉ a) (hp : ':' ∉ p)
    (hp2 : '[' ∉ p) : ParseAddressPort (a ++ ':' :: p) = (a, p) := by
  have hc : strings.Contains (a ++ ':' :: p) ['['] = false := by
    rw [Bool.eq_false_iff, Ne, strings.Contains_single_iff]
    simp [ha2, hp2]
  have hs : strings.Split (a ++ ':' :: p) [':'] = [a, p] :=
    (strings.Split_single_eq_pair_iff _ _ _ _).2 ⟨rfl, ha, hp⟩
  simp [ParseAddressPort, hc, hs]

theorem ParseAddressPort_ipv6 (a p : Str) (ha : ¬ [']', ':'] <:+: a)
    (hp : ¬ [']', ':'] <:+: p) : ParseAddressPort ('[' :: a ++ ']' :: ':' :: p) = (a, p) := by
  have hc : strings.Contains ('[' :: a ++ ']' :: ':' :: p) ['['] = true := by
    rw [strings.Contains_single_iff]
    simp
  have ha' : ¬ [']', ':'] <:+: '[' :: a := by
    rw [List.infix_cons_iff]
    simp [ha]
  have hs : strings.Split ('[' :: a ++ ']' :: ':' :: p) [']', ':'] = ['[' :: a, p] :=
    strings.Split_bracketColon ('[' :: a) p ha' hp
  rw [List.cons_append] at hc hs
  simp [ParseAddressPort, hc, hs, strings.TrimPrefix, strings.HasPrefix]

theorem ParseAddressPort_no_separator (s : Str) (h1 : '[' ∉ s) (h2 : ':' ∉ s) :
    ParseAddressPort s = ([], []) := by
  have hc : strings.Contains s ['['] = false := by
    rw [Bool.eq_false_iff, Ne, strings.Contains_single_iff]
    exact h1
  simp [ParseAddressPort, hc, strings.Split_single_of_not_mem s ':' h2]

/-- C8: `ParseAddressPort` decodes both recognised shapes.  `a:p` gives `(a, p)` when
neither part contains `:` or `[`; `[a]:p` gives `(a, p)` when neither part contains the
substring `]:`; a string without `[` and without `:` gives two empty strings; and the
three examples of the specification evaluate as stated. -/
theorem ParseAddressPort_decodes_recognised_shapes :
    (∀ a p : Str, ':' ∉ a → '[' ∉ a → ':' ∉ p → '[' ∉ p →
      ParseAddressPort (a ++ [':'] ++ p) = (a, p)) ∧
    (∀ a p : Str, ¬ [']', ':'] <:+: a → ¬ [']', ':'] <:+: p →
      ParseAddressPort (['['] ++ a ++ [']', ':'] ++ p) = (a, p)) ∧
    (∀ s : Str, '[' ∉ s → ':' ∉ s → ParseAddressPort s = ([], [])) ∧
    ParseAddressPort "192.168.1.5:8080".toList = ("192.168.1.5".toList, "8080".toList) ∧
    ParseAddressPort "[::1]:443".toList = ("::1".toList, "443".toList) ∧
    ParseAddressPort "bad-input".toList = ([], []) := by
  refine ⟨?_, ?_, ParseAddressPort_no_separator, by decide, by decide, by decide⟩
  · intro a p ha ha2 hp hp2
    simpa using ParseAddressPort_ipv4 a p ha ha2 hp hp2
  · intro a p ha hp
    simpa using ParseAddressPort_ipv6 a p ha hp

/-- Witness of C8 at the address `10.0.0.1` with port `80`, at the bracketed address
`fe80::1` with port `22`, and at a string without separator. -/
theorem ParseAddressPort_decodes_recognised_shapes_witness :
    ParseAddressPort ("10.0.0.1".toList ++ [':'] ++ "80".toList) =
        ("10.0.0.1".toList, "80".toList) ∧
    ParseAddressPort (['['] ++ "fe80::1".toList ++ [']', ':'] ++ "22".toList) =
        ("fe80::1".toList, "22".toList) ∧
    ParseAddressPort "localhost".toList = ([], []) :=
  ⟨ParseAddressPort_decodes_recognised_shapes.1 "10.0.0.1".toList "80".toList
      (by decide) (by decide) (by decide) (by decide),
    ParseAddressPort_decodes_recognised_shapes.2.1 "fe80::1".toList "22".toList
      (by decide) (by decide),
    ParseAddressPort_decodes_recognised_shapes.2.2.1 "localhost".toList
      (by decide) (by decide)⟩

theorem TrimPrefix_bracket_cases (p0 : Str) :
    (∃ a, p0 = '[' :: a ∧ strings.TrimPrefix p0 ['['] = a) ∨
    (¬ ['['] <+: p0 ∧ strings.TrimPrefix p0 ['['] = p0) := by
  cases p0 with
  | nil => right; simp [strings.TrimPrefix, strings.HasPrefix]
  | cons d t =>
    by_cases hd : d = '['
    · left; subst hd; exact ⟨t, rfl, by simp [strings.TrimPrefix, strings.HasPrefix]⟩
    · right
      have hd' : ¬ '[' = d := fun e => hd e.symm
      simp [strings.TrimPrefix, strings.HasPrefix, hd']

/-- C9, counterexample: `x[y]:80` is in neither recognised shape, and `ParseAddressPort`
returns the partial result `("x[y", "80")` for it. -/
theorem ParseAddressPort_partial_result_counterexample :
    ¬ ∀ s : Str,
      ParseAddressPort s = ([], []) ∨
      ('[' ∉ s ∧ s = (ParseAddressPort s).1 ++ [':'] ++ (ParseAddressPort s).2) ∨
      s = ['['] ++ (ParseAddressPort s).1 ++ [']', ':'] ++ (ParseAddressPort s).2 := by
  intro h
  have h1 := h "x[y]:80".toList
  revert h1
  decide

/-- C9, amended: for every string `s` with `ParseAddressPort s = (a, p)`, either `a` and
`p` are both empty, or `s` has no `[` and is `a:p`, or `s` is `[a]:p`, or `s` contains `[`
without beginning with it and is `a]:p`; so a string in none of these shapes gives two
empty strings. -/
theorem ParseAddressPort_result_shape :
    (∀ s : Str,
      ParseAddressPort s = ([], []) ∨
      ('[' ∉ s ∧ s = (ParseAddressPort s).1 ++ [':'] ++ (ParseAddressPort s).2) ∨
      s = ['['] ++ (ParseAddressPort s).1 ++ [']', ':'] ++ (ParseAddressPort s).2 ∨
      ('[' ∈ s ∧ ¬ ['['] <+: s ∧
        s = (ParseAddressPort s).1 ++ [']', ':'] ++ (ParseAddressPort s).2)) ∧
    (∀ s : Str,
      (¬ ∃ a p : Str, ('[' ∉ s ∧ s = a ++ [':'] ++ p) ∨ s = ['['] ++ a ++ [']', ':'] ++ p ∨
        ('[' ∈ s ∧ ¬ ['['] <+: s ∧ s = a ++ [']', ':'] ++ p)) →
      ParseAddressPort s = ([], [])) := by
  have main : ∀ s : Str,
      ParseAddressPort s = ([], []) ∨
      ('[' ∉ s ∧ s = (ParseAddressPort s).1 ++ [':'] ++ (ParseAddressPort s).2) ∨
      s = ['['] ++ (ParseAddressPort s).1 ++ [']', ':'] ++ (ParseAddressPort s).2 ∨
      ('[' ∈ s ∧ ¬ ['['] <+: s ∧
        s = (ParseAddressPort s).1 ++ [']', ':'] ++ (ParseAddressPort s).2) := by
    intro s
    by_cases hc : strings.Contains s ['['] = true
    · have hmem : '[' ∈ s := (strings.Contains_single_iff s '[').1 hc
      rcases hparts : strings.Split s [']', ':'] with _ | ⟨p0, _ | ⟨p1, _ | ⟨p2, rest⟩⟩⟩
      · left; simp [ParseAddressPort, hc, hparts]
      · left; simp [ParseAddressPort, hc, hparts]
      · obtain ⟨m, _, _, _, _, hs⟩ := strings.Split_eq_pair s [']', ':'] (by simp) p0 p1 hparts
        have hres : ParseAddressPort s = (strings.TrimPrefix p0 ['['], p1) := by
          simp [ParseAddressPort, hc, hparts]
        rcases TrimPrefix_bracket_cases p0 with ⟨a, ha, ht⟩ | ⟨hn, ht⟩
        · right; right; left
          rw [hres, ht]
          simp only
          rw [hs, ha]
          simp
        · right; right; right
          refine ⟨hmem, ?_, ?_⟩
          · intro hpre
            apply hn
            rw [hs] at hpre
            cases p0 with
            | nil => simp at hpre
            | cons d t =>
              simp only [List.cons_append, List.cons_prefix_cons] at hpre
              simp [← hpre.1]
          · rw [hres, ht]
            simpa using hs
      · left; simp [ParseAddressPort, hc, hparts]
    · have hc' : strings.Contains s ['['] = false := by simpa using hc
      have hmem : '[' ∉ s := fun h => hc ((strings.Contains_single_iff s '[').2 h)
      rcases hparts : strings.Split s [':'] with _ | ⟨p0, _ | ⟨p1, _ | ⟨p2, rest⟩⟩⟩
      · left; simp [ParseAddressPort, hc', hparts]
      · left; simp [ParseAddressPort, hc', hparts]
      · right; left
        have hs := ((strings.Split_single_eq_pair_iff s ':' p0 p1).1 hparts).1
        have hres : ParseAddressPort s = (p0, p1) := by
          simp [ParseAddressPort, hc', hparts]
        rw [hres]
        exact ⟨hmem, by simpa using hs⟩
      · left; simp [ParseAddressPort, hc', hparts]
  refine ⟨main, ?_⟩
  intro s hno
  rcases main s with h | h | h | h
  · exact h
  · exact absurd ⟨_, _, Or.inl h⟩ hno
  · exact absurd ⟨_, _, Or.inr (Or.inl h)⟩ hno
  · exact absurd ⟨_, _, Or.inr (Or.inr h)⟩ hno

/-- Witness of C9 at `bad-input`, which is in none of the shapes. -/
theorem ParseAddressPort_result_shape_witness :
    ParseAddressPort "bad-input".toList = ([], []) :=
  ParseAddressPort_result_shape.2 "bad-input".toList (by
    rintro ⟨a, p, h | h | h⟩
    · have h2 := congrArg (fun l => decide (':' ∈ l)) h.2
      simp at h2
    · have h2 := congrArg (fun l => decide ('[' ∈ l)) h
      simp at h2
    · exact absurd h.1 (by decide))

end utils

/-! ## `ParsePIDProcess` -/

namespace strings

theorem dropWhile_eq_self_of_forall (p : Char → Bool) (l : Str) (h : ∀ a ∈ l, p a = false) :
    l.dropWhile p = l := by
  cases l with
  | nil => rfl
  | cons d t => simp [List.dropWhile_cons, h d (by simp)]

theorem Trim_of_not_mem (x : Str) (c : Char) (h : c ∉ x) : Trim x [c] = x := by
  unfold Trim
  have h1 : ∀ a ∈ x, decide (a ∈ [c]) = false := by
    intro a ha
    simp only [List.mem_singleton, decide_eq_false_iff_not]
    rintro rfl
    exact h ha
  have h2 : ∀ a ∈ x.reverse, decide (a ∈ [c]) = false := by
    intro a ha
    exact h1 a (List.mem_reverse.1 ha)
  rw [dropWhile_eq_self_of_forall _ _ h1, dropWhile_eq_self_of_forall _ _ h2,
    List.reverse_reverse]

theorem Trim_wrapped (x : Str) (c : Char) (h : c ∉ x) : Trim (c :: (x ++ [c])) [c] = x := by
  have hx := Trim_of_not_mem x c h
  unfold Trim at hx ⊢
  have h1 : ∀ a ∈ x, decide (a ∈ [c]) = false := by
    intro a ha
    simp only [List.mem_singleton, decide_eq_false_iff_not]
    rintro rfl
    exact h ha
  rw [List.dropWhile_cons_of_pos (by simp)]
  cases x with
  | nil => simp [List.dropWhile_cons]
  | cons d t =>
    have hd : decide (d ∈ [c]) = false := h1 d (by simp)
    rw [List.cons_append, List.dropWhile_cons_of_neg (by simpa using hd)]
    rw [← List.cons_append, List.reverse_append]
    simp only [List.reverse_cons, List.reverse_nil, List.nil_append, List.singleton_append]
    rw [List.dropWhile_cons_of_pos (by simp)]
    have h2 : ∀ a ∈ t.reverse ++ [d], decide (a ∈ [c]) = false := by
      intro a ha
      apply h1
      simpa [or_comm] using ha
    rw [dropWhile_eq_self_of_forall _ _ h2]
    simp

theorem Trim_quoted (q : Bool) (x : Str) (h : '"' ∉ x) : Trim (quoted q x) ['"'] = x := by
  cases q
  · simpa [quoted] using Trim_of_not_mem x '"' h
  · simpa [quoted] using Trim_wrapped x '"' h

theorem not_mem_quoted (q : Bool) (x : Str) (c : Char) (hc : c ≠ '"') (h : c ∉ x) :
    c ∉ quoted q x := by
  cases q <;> simp [quoted, h, hc]

theorem not_infix_quoted (q : Bool) (x sub : Str) (c : Char) (t : Str) (hsub : sub = c :: t)
    (hc : c ≠ '"') (hlast : ∀ r, sub ≠ r ++ ['"']) (h : ¬ sub <:+: x) :
    ¬ sub <:+: quoted q x := by
  cases q
  · simpa [quoted] using h
  · simp only [quoted, if_true, List.singleton_append, List.cons_append]
    rw [List.infix_cons_iff, List.infix_concat_iff, List.suffix_concat_iff]
    rintro (hp | (rfl | ⟨r, hr, _⟩) | hi)
    · rw [hsub, List.cons_prefix_cons] at hp
      exact hc hp.1
    · exact absurd hsub (by simp)
    · exact hlast r hr
    · exact h hi

end strings

namespace strings

theorem Split_single_cases (s : Str) (c : Char) :
    (c ∉ s ∧ Split s [c] = [s]) ∨
    (∃ a b, s = a ++ c :: b ∧ c ∉ a ∧ Split s [c] = a :: Split b [c]) := by
  cases hi : Index s [c] with
  | none =>
    left
    exact ⟨(Index_single_eq_none_iff s c).1 hi, Split_of_Index_none _ _ hi⟩
  | some m =>
    right
    have hs := Index_some_eq s [c] m hi
    have hm := Index_single_some_not_mem s c m hi
    refine ⟨s.take m, s.drop (m + 1), by simpa using hs, hm, ?_⟩
    simpa using Split_of_Index_some s [c] (by simp) m hi

/-- Every part `Split` returns is a substring of the string. -/
theorem mem_Split_single_substring (c : Char) :
    ∀ (n : Nat) (s : Str), s.length ≤ n → ∀ comp ∈ Split s [c], comp <:+: s := by
  intro n
  induction n with
  | zero =>
    intro s hn comp hcomp
    have hs : s = [] := List.length_eq_zero.1 (Nat.le_zero.1 hn)
    subst hs
    rw [Split_single_of_not_mem [] c (by simp)] at hcomp
    simp at hcomp
    simp [hcomp]
  | succ n ih =>
    intro s hn comp hcomp
    rcases Split_single_cases s c with ⟨_, hsp⟩ | ⟨a, b, hs, _, hsp⟩
    · rw [hsp] at hcomp
      simp at hcomp
      simp [hcomp]
    · rw [hsp] at hcomp
      rcases List.mem_cons.1 hcomp with h | h
      · rw [h, hs]
        exact (List.prefix_append a (c :: b)).isInfix
      · have hb : b.length ≤ n := by
          have := congrArg List.length hs
          simp at this
          omega
        have h1 := ih b hb comp h
        rw [hs]
        exact h1.trans ⟨a ++ [c], [], by simp⟩

theorem prefix_append_cons_of_not_mem (c : Char) (b : Str) :
    ∀ (a sub : Str), sub <+: a ++ c :: b → c ∉ sub → sub <+: a := by
  intro a
  induction a with
  | nil =>
    intro sub h hc
    rw [List.nil_append, List.prefix_cons_iff] at h
    rcases h with rfl | ⟨t, rfl, _⟩
    · exact List.prefix_rfl
    · exact absurd (List.mem_cons_self c t) hc
  | cons d a ih =>
    intro sub h hc
    rw [List.cons_append, List.prefix_cons_iff] at h
    rcases h with rfl | ⟨t, rfl, ht⟩
    · exact List.nil_prefix
    · rw [List.cons_prefix_cons]
      exact ⟨rfl, ih t ht (fun e => hc (List.mem_cons_of_mem d e))⟩

theorem infix_append_cons_of_not_mem (c : Char) (b sub : Str) (hc : c ∉ sub) :
    ∀ a : Str, sub <:+: a ++ c :: b → sub <:+: a ∨ sub <:+: b := by
  intro a
  induction a with
  | nil =>
    intro h
    rw [List.nil_append, List.infix_cons_iff] at h
    rcases h with h | h
    · left
      exact (prefix_append_cons_of_not_mem c b [] sub (by simpa using h) hc).isInfix
    · right; exact h
  | cons d a ih =>
    intro h
    rw [List.cons_append, List.infix_cons_iff] at h
    rcases h with h | h
    · left
      exact (prefix_append_cons_of_not_mem c b (d :: a) sub (by simpa using h) hc).isInfix
    · rcases ih h with h1 | h1
      · left; exact List.infix_cons h1
      · right; exact h1

/-- A substring without the separator lies inside one of the parts `Split` returns. -/
theorem infix_mem_Split_single (c : Char) (sub : Str) (hc : c ∉ sub) :
    ∀ (n : Nat) (s : Str), s.length ≤ n → sub <:+: s → ∃ comp ∈ Split s [c], sub <:+: comp := by
  intro n
  induction n with
  | zero =>
    intro s hn h
    have hs : s = [] := List.length_eq_zero.1 (Nat.le_zero.1 hn)
    subst hs
    rw [Split_single_of_not_mem [] c (by simp)]
    exact ⟨[], by simp, h⟩
  | succ n ih =>
    intro s hn h
    rcases Split_single_cases s c with ⟨_, hsp⟩ | ⟨a, b, hs, _, hsp⟩
    · rw [hsp]
      exact ⟨s, by simp, h⟩
    · rw [hsp]
      rw [hs] at h
      rcases infix_append_cons_of_not_mem c b sub hc a h with h1 | h1
      · exact ⟨a, by simp, h1⟩
      · have hb : b.length ≤ n := by
          have := congrArg List.length hs
          simp at this
          omega
        obtain ⟨comp, hmem, hin⟩ := ih b hb h1
        exact ⟨comp, List.mem_cons_of_mem a hmem, hin⟩

theorem TrimPrefix_substring (s pre : Str) : TrimPrefix s pre <:+: s := by
  unfold TrimPrefix
  split
  · exact ( List.drop_suffix _ _).isInfix
  · exact List.infix_refl _

theorem TrimSuffix_substring (s suf : Str) : TrimSuffix s suf <:+: s := by
  unfold TrimSuffix
  split
  · exact ( List.take_prefix _ _).isInfix
  · exact List.infix_refl _

end strings

namespace filepath

/-- The base name of `dir/name` is `name`, when `name` is not empty and has no `/`. -/
theorem Base_dir_name (dir name : Str) (hne : name ≠ []) (h : '/' ∉ name) :
    Base (dir ++ '/' :: name) = name := by
  have hrev : (dir ++ '/' :: name).reverse = name.reverse ++ '/' :: dir.reverse := by simp
  obtain ⟨d, t, hdt⟩ : ∃ d t, name.reverse = d :: t := by
    cases hr : name.reverse with
    | nil => exact absurd (List.reverse_eq_nil_iff.1 hr) hne
    | cons d t => exact ⟨d, t, rfl⟩
  have hd : d ≠ '/' := by
    intro e
    apply h
    rw [← List.mem_reverse, hdt, e]
    exact List.mem_cons_self _ _
  have hall : ∀ a ∈ name.reverse, (decide (a ≠ '/')) = true := by
    intro a ha
    simp only [ne_eq, decide_not, Bool.not_eq_true', decide_eq_false_iff_not]
    rintro rfl
    exact h (List.mem_reverse.1 ha)
  unfold Base
  rw [if_neg (by simp)]
  simp only [hrev]
  have h1 : List.dropWhile (fun c => decide (c = '/')) (name.reverse ++ '/' :: dir.reverse)
      = name.reverse ++ '/' :: dir.reverse := by
    rw [hdt, List.cons_append, List.dropWhile_cons_of_neg (by simpa using hd)]
  rw [h1, List.reverse_reverse]
  have h2 : List.takeWhile (fun c => decide (c ≠ '/')) (name.reverse ++ '/' :: dir.reverse)
      = name.reverse := by
    rw [List.takeWhile_append_of_pos hall]
    simp
  rw [h2, List.reverse_reverse, if_neg hne]

end filepath

namespace utils

theorem parsePart_pid (acc : Str × Str) (q : Bool) (N : Str) (h : '"' ∉ N) :
    parsePart acc (['p', 'i', 'd', '='] ++ quoted q N) = (N, acc.2) := by
  have hc : strings.Contains (['p', 'i', 'd', '='] ++ quoted q N) ['p', 'i', 'd', '='] = true :=
    (strings.Contains_iff _ _).2 (List.prefix_append _ _).isInfix
  have ht : strings.TrimPrefix (['p', 'i', 'd', '='] ++ quoted q N) ['p', 'i', 'd', '=']
      = quoted q N := by
    simp [strings.TrimPrefix, strings.HasPrefix]
  unfold parsePart
  rw [if_pos hc, ht, strings.Trim_quoted q N h]

theorem not_infix_pid_exePart (q : Bool) (P : Str) (h : ¬ ['p', 'i', 'd', '='] <:+: P) :
    ¬ ['p', 'i', 'd', '='] <:+: ['e', 'x', 'e', '='] ++ quoted q P := by
  have hq : ¬ ['p', 'i', 'd', '='] <:+: quoted q P :=
    strings.not_infix_quoted q P _ 'p' ['i', 'd', '='] rfl (by decide)
      (by
        intro r hr
        have := congrArg List.reverse hr
        simp at this) h
  simp only [List.cons_append, List.nil_append]
  intro hi
  rw [List.infix_cons_iff, List.infix_cons_iff, List.infix_cons_iff, List.infix_cons_iff] at hi
  simp only [List.cons_prefix_cons] at hi
  rcases hi with hi | hi | hi | hi | hi
  · exact absurd hi.1 (by decide)
  · exact absurd hi.1 (by decide)
  · exact absurd hi.1 (by decide)
  · exact absurd hi.1 (by decide)
  · exact hq hi

theorem parsePart_exe (acc : Str × Str) (q : Bool) (P : Str) (h : '"' ∉ P)
    (hp : ¬ ['p', 'i', 'd', '='] <:+: P) :
    parsePart acc (['e', 'x', 'e', '='] ++ quoted q P) = (acc.1, filepath.Base P) := by
  have hc1 : ¬ strings.Contains (['e', 'x', 'e', '='] ++ quoted q P) ['p', 'i', 'd', '='] = true :=
    fun e => not_infix_pid_exePart q P hp ((strings.Contains_iff _ _).1 e)
  have hc : strings.Contains (['e', 'x', 'e', '='] ++ quoted q P) ['e', 'x', 'e', '='] = true :=
    (strings.Contains_iff _ _).2 (List.prefix_append _ _).isInfix
  have ht : strings.TrimPrefix (['e', 'x', 'e', '='] ++ quoted q P) ['e', 'x', 'e', '=']
      = quoted q P := by
    simp [strings.TrimPrefix, strings.HasPrefix]
  unfold parsePart
  rw [if_neg hc1, if_pos hc, ht, strings.Trim_quoted q P h]

theorem Split_pidExeDescriptor (qn qe : Bool) (N P : Str) (hN : ',' ∉ N) (hP : ',' ∉ P) :
    strings.Split (pidExeDescriptor qn qe N P) [','] =
      [['p', 'i', 'd', '='] ++ quoted qn N, ['e', 'x', 'e', '='] ++ quoted qe P] := by
  rw [strings.Split_single_eq_pair_iff]
  have h1 := strings.not_mem_quoted qn N ',' (by decide) hN
  have h2 := strings.not_mem_quoted qe P ',' (by decide) hP
  refine ⟨by simp [pidExeDescriptor], ?_, ?_⟩
  · simp [h1]
  · simp [h2]

theorem foldl_pidExeDescriptor (qn qe : Bool) (N P : Str) (hN : ',' ∉ N) (hN2 : '"' ∉ N)
    (hP : ',' ∉ P) (hP2 : '"' ∉ P) (hpid : ¬ ['p', 'i', 'd', '='] <:+: P) :
    (strings.Split (pidExeDescriptor qn qe N P) [',']).foldl parsePart ([], [])
      = (N, filepath.Base P) := by
  rw [Split_pidExeDescriptor qn qe N P hN hP]
  simp only [List.foldl_cons, List.foldl_nil]
  rw [parsePart_pid _ qn N hN2, parsePart_exe _ qe P hP2 hpid]

theorem ParsePIDProcess_plain (qn qe : Bool) (N P : Str) (hN : ',' ∉ N) (hN2 : '"' ∉ N)
    (hP : ',' ∉ P) (hP2 : '"' ∉ P) (hpid : ¬ ['p', 'i', 'd', '='] <:+: P) :
    ParsePIDProcess (pidExeDescriptor qn qe N P) = (N, filepath.Base P) := by
  have hfold := foldl_pidExeDescriptor qn qe N P hN hN2 hP hP2 hpid
  have hshape : ∃ t, pidExeDescriptor qn qe N P = 'p' :: 'i' :: t := ⟨_, by simp [pidExeDescriptor]; rfl⟩
  obtain ⟨t, ht⟩ := hshape
  unfold ParsePIDProcess
  rw [if_neg (by rw [ht]; simp)]
  have hpre : strings.HasPrefix (pidExeDescriptor qn qe N P) usersEnvelope = false := by
    rw [ht]; simp [strings.HasPrefix, usersEnvelope, List.isPrefixOf]
  simp only [hpre, Bool.false_eq_true, if_false]
  exact hfold

theorem ParsePIDProcess_enveloped (qn qe : Bool) (N P : Str) (hN : ',' ∉ N) (hN2 : '"' ∉ N)
    (hP : ',' ∉ P) (hP2 : '"' ∉ P) (hpid : ¬ ['p', 'i', 'd', '='] <:+: P) :
    ParsePIDProcess (usersEnvelope ++ pidExeDescriptor qn qe N P ++ [')'])
      = (N, filepath.Base P) := by
  have hfold := foldl_pidExeDescriptor qn qe N P hN hN2 hP hP2 hpid
  unfold ParsePIDProcess
  rw [if_neg (by simp [usersEnvelope])]
  have hpre : strings.HasPrefix (usersEnvelope ++ pidExeDescriptor qn qe N P ++ [')'])
      usersEnvelope = true := by
    simp [strings.HasPrefix, usersEnvelope]
  have htp : strings.TrimPrefix (usersEnvelope ++ pidExeDescriptor qn qe N P ++ [')'])
      usersEnvelope = pidExeDescriptor qn qe N P ++ [')'] := by
    unfold strings.TrimPrefix
    rw [if_pos hpre, List.append_assoc, List.drop_left' rfl]
  have hts : strings.TrimSuffix (pidExeDescriptor qn qe N P ++ [')']) [')']
      = pidExeDescriptor qn qe N P := by
    simp [strings.TrimSuffix, strings.HasSuffix]
  simp only [hpre, if_true, htp, hts]
  exact hfold

theorem foldl_parsePart_fst (parts : List Str) :
    ∀ acc : Str × Str, (∀ c ∈ parts, strings.Contains c ['p', 'i', 'd', '='] = false) →
      (parts.foldl parsePart acc).1 = acc.1 := by
  induction parts with
  | nil => intro acc _; rfl
  | cons c rest ih =>
    intro acc h
    rw [List.foldl_cons, ih _ (fun c hc => h c (List.mem_cons_of_mem _ hc))]
    have hc := h c (List.mem_cons_self _ _)
    unfold parsePart
    simp only [hc, Bool.false_eq_true, if_false]
    split <;> rfl

theorem foldl_parsePart_snd (parts : List Str) :
    ∀ acc : Str × Str, (∀ c ∈ parts, strings.Contains c ['e', 'x', 'e', '='] = false) →
      (parts.foldl parsePart acc).2 = acc.2 := by
  induction parts with
  | nil => intro acc _; rfl
  | cons c rest ih =>
    intro acc h
    rw [List.foldl_cons, ih _ (fun c hc => h c (List.mem_cons_of_mem _ hc))]
    have hc := h c (List.mem_cons_self _ _)
    unfold parsePart
    simp only [hc, Bool.false_eq_true, if_false]
    split <;> rfl

/-- The descriptor `ParsePIDProcess` splits at the commas, envelope removed, is a
substring of the descriptor it was given. -/
theorem stripped_substring (d : Str) :
    (if strings.HasPrefix d usersEnvelope then
        strings.TrimSuffix (strings.TrimPrefix d usersEnvelope) [')']
      else d) <:+: d := by
  split
  · exact (strings.TrimSuffix_substring _ _).trans (strings.TrimPrefix_substring _ _)
  · exact List.infix_refl _

/-- When no comma-separated component of the descriptor contains `key`, no component of
the descriptor with its envelope removed does. -/
theorem stripped_components (d key : Str) (hkey : ',' ∉ key)
    (h : ∀ c ∈ strings.Split d [','], strings.Contains c key = false) :
    ∀ c ∈ strings.Split (if strings.HasPrefix d usersEnvelope then
        strings.TrimSuffix (strings.TrimPrefix d usersEnvelope) [')'] else d) [','],
      strings.Contains c key = false := by
  intro c hc
  rw [strings.Contains_eq_false_iff]
  intro hin
  have h1 := strings.mem_Split_single_substring ',' _ _ (Nat.le_refl _) c hc
  have h2 : key <:+: d := (hin.trans h1).trans (stripped_substring d)
  obtain ⟨comp, hmem, hcomp⟩ := strings.infix_mem_Split_single ',' key hkey _ d (Nat.le_refl _) h2
  have := h comp hmem
  rw [strings.Contains_eq_false_iff] at this
  exact this hcomp

theorem ParsePIDProcess_no_pid (d : Str)
    (h : ∀ c ∈ strings.Split d [','], strings.Contains c ['p', 'i', 'd', '='] = false) :
    (ParsePIDProcess d).1 = [] := by
  unfold ParsePIDProcess
  split
  · rfl
  · exact foldl_parsePart_fst _ _ (stripped_components d _ (by decide) h)

theorem ParsePIDProcess_no_exe (d : Str)
    (h : ∀ c ∈ strings.Split d [','], strings.Contains c ['e', 'x', 'e', '='] = false) :
    (ParsePIDProcess d).2 = [] := by
  unfold ParsePIDProcess
  split
  · rfl
  · exact foldl_parsePart_snd _ _ (stripped_components d _ (by decide) h)

/-- C10: `ParsePIDProcess` returns two empty strings for the sentinels `""` and `-`; for
a pid text `N` and a non-empty path `P` without `,` and `"` (`N` without `exe=`, `P`
without `pid=`), the descriptors `pid=N,exe=P` and `users:(pid=N,exe=P)`, each value
quoted or not, give `(N, filepath.Base P)`, the base name of `dir/name` being `name`;
and when no comma-separated component of a descriptor contains `pid=` (respectively
`exe=`), the returned pid (respectively process name) is empty. -/
theorem ParsePIDProcess_extracts_pid_and_base_name :
    ParsePIDProcess [] = ([], []) ∧
    ParsePIDProcess ['-'] = ([], []) ∧
    (∀ (N P : Str) (qn qe : Bool), P ≠ [] → ',' ∉ N → '"' ∉ N → ',' ∉ P → '"' ∉ P →
      ¬ ['e', 'x', 'e', '='] <:+: N → ¬ ['p', 'i', 'd', '='] <:+: P →
      ParsePIDProcess (pidExeDescriptor qn qe N P) = (N, filepath.Base P) ∧
      ParsePIDProcess (usersEnvelope ++ pidExeDescriptor qn qe N P ++ [')'])
        = (N, filepath.Base P)) ∧
    (∀ dir name : Str, name ≠ [] → '/' ∉ name → filepath.Base (dir ++ ['/'] ++ name) = name) ∧
    ParsePIDProcess "users:(pid=123,exe=\"/usr/bin/sshd\")".toList
      = ("123".toList, "sshd".toList) ∧
    (∀ d : Str,
      (∀ c ∈ strings.Split d [','], strings.Contains c ['p', 'i', 'd', '='] = false) →
      (ParsePIDProcess d).1 = []) ∧
    (∀ d : Str,
      (∀ c ∈ strings.Split d [','], strings.Contains c ['e', 'x', 'e', '='] = false) →
      (ParsePIDProcess d).2 = []) := by
  refine ⟨by decide, by decide, ?_, ?_, by decide, ParsePIDProcess_no_pid,
    ParsePIDProcess_no_exe⟩
  · intro N P qn qe _ hN hN2 hP hP2 _ hpid
    exact ⟨ParsePIDProcess_plain qn qe N P hN hN2 hP hP2 hpid,
      ParsePIDProcess_enveloped qn qe N P hN hN2 hP hP2 hpid⟩
  · intro dir name hne h
    simpa using filepath.Base_dir_name dir name hne h

/-- Witness of C10: pid `4711` with the quoted path `/usr/sbin/nginx`, the base name of
`/usr/sbin/nginx`, a descriptor without `pid=` and a descriptor without `exe=`. -/
theorem ParsePIDProcess_extracts_pid_and_base_name_witness :
    (ParsePIDProcess (pidExeDescriptor false true "4711".toList "/usr/sbin/nginx".toList)
        = ("4711".toList, filepath.Base "/usr/sbin/nginx".toList) ∧
      ParsePIDProcess (usersEnvelope ++
          pidExeDescriptor false true "4711".toList "/usr/sbin/nginx".toList ++ [')'])
        = ("4711".toList, filepath.Base "/usr/sbin/nginx".toList)) ∧
    filepath.Base ("/usr/sbin".toList ++ ['/'] ++ "nginx".toList) = "nginx".toList ∧
    (ParsePIDProcess "exe=/bin/sh,fd=3".toList).1 = [] ∧
    (ParsePIDProcess "users:(pid=7,fd=3)".toList).2 = [] :=
  ⟨ParsePIDProcess_extracts_pid_and_base_name.2.2.1 "4711".toList "/usr/sbin/nginx".toList
      false true (by decide) (by decide) (by decide) (by decide) (by decide) (by decide)
      (by decide),
    ParsePIDProcess_extracts_pid_and_base_name.2.2.2.1 "/usr/sbin".toList "nginx".toList
      (by decide) (by decide),
    ParsePIDProcess_extracts_pid_and_base_name.2.2.2.2.2.1 "exe=/bin/sh,fd=3".toList
      (by decide),
    ParsePIDProcess_extracts_pid_and_base_name.2.2.2.2.2.2 "users:(pid=7,fd=3)".toList
      (by decide)⟩

end utils

/-! ## Gauge vectors -/

namespace GaugeVec

theorem mem_Set (g : GaugeVec) (k : Labels) (v : Nat) (e : Labels × Nat) :
    e ∈ Set g k v ↔ e = (k, v) ∨ (e ∈ g ∧ e.1 ≠ k) := by
  unfold Set
  by_cases hany : g.any (fun e => decide (e.1 = k)) = true
  · rw [if_pos hany]
    simp only [List.any_eq_true, decide_eq_true_eq] at hany
    obtain ⟨e0, he0, hk⟩ := hany
    simp only [List.mem_map]
    constructor
    · rintro ⟨a, ha, rfl⟩
      by_cases hak : a.1 = k
      · left; simp [hak]
      · right; simp [hak, ha]
    · rintro (rfl | ⟨he, hne⟩)
      · exact ⟨e0, he0, by simp [hk]⟩
      · exact ⟨e, he, by simp [hne]⟩
  · rw [if_neg hany]
    simp only [List.any_eq_true, decide_eq_true_eq, not_exists, not_and] at hany
    simp only [List.mem_append, List.mem_singleton]
    constructor
    · rintro (he | rfl)
      · right; exact ⟨he, hany e he⟩
      · left; rfl
    · rintro (rfl | ⟨he, _⟩)
      · right; rfl
      · left; exact he

theorem keys_Set (g : GaugeVec) (k : Labels) (v : Nat) :
    keys (Set g k v) = if k ∈ keys g then keys g else keys g ++ [k] := by
  unfold Set keys
  by_cases hany : g.any (fun e => decide (e.1 = k)) = true
  · rw [if_pos hany]
    simp only [List.any_eq_true, decide_eq_true_eq] at hany
    have hk : k ∈ List.map Prod.fst g := by
      obtain ⟨e0, he0, hk⟩ := hany
      exact List.mem_map.2 ⟨e0, he0, hk⟩
    rw [if_pos hk, List.map_map]
    apply List.map_congr_left
    intro a _
    by_cases hak : a.1 = k <;> simp [hak]
  · rw [if_neg hany]
    simp only [List.any_eq_true, decide_eq_true_eq, not_exists, not_and] at hany
    have hk : k ∉ List.map Prod.fst g := by
      intro hk
      obtain ⟨e0, he0, hk0⟩ := List.mem_map.1 hk
      exact hany e0 he0 hk0
    rw [if_neg hk]
    simp

theorem nodup_keys_Set (g : GaugeVec) (k : Labels) (v : Nat) (h : (keys g).Nodup) :
    (keys (Set g k v)).Nodup := by
  rw [keys_Set]
  split
  · exact h
  · rename_i hk
    exact List.Nodup.append h (List.nodup_singleton k) (by simpa using hk)

theorem Get_eq_some_iff (g : GaugeVec) (h : (keys g).Nodup) (k : Labels) (v : Nat) :
    Get g k = some v ↔ (k, v) ∈ g := by
  induction g with
  | nil => simp [Get]
  | cons e rest ih =>
    have hn : e.1 ∉ keys rest ∧ (keys rest).Nodup := by simpa [keys] using h
    by_cases hek : e.1 = k
    · have hnot : ∀ v', (k, v') ∉ rest := by
        intro v' hmem
        apply hn.1
        rw [hek]
        exact List.mem_map.2 ⟨(k, v'), hmem, rfl⟩
      simp only [Get, List.find?_cons, hek, decide_True, Option.map_some', Option.some.injEq,
        List.mem_cons, hnot, or_false]
      constructor
      · rintro rfl; exact Prod.ext hek.symm rfl
      · intro h2; rw [← h2]
    · have := ih hn.2
      simp only [Get] at this
      simp only [Get, List.find?_cons, hek, decide_False, List.mem_cons]
      rw [this]
      constructor
      · intro h2; exact Or.inr h2
      · rintro (h2 | h2)
        · exact absurd (congrArg Prod.fst h2).symm hek
        · exact h2

theorem SetsKeys.foldl {α : Type} {f : GaugeVec → α → GaugeVec} {K : α → Labels → Prop}
    (h : SetsKeys f K) (l : List α) :
    ∀ g : GaugeVec,
      (∀ e, e ∈ l.foldl f g ↔
        (e.2 = 1 ∧ ∃ a ∈ l, K a e.1) ∨ (e ∈ g ∧ ¬ ∃ a ∈ l, K a e.1)) ∧
      ((keys g).Nodup → (keys (l.foldl f g)).Nodup) := by
  induction l with
  | nil => intro g; simp
  | cons a rest ih =>
    intro g
    obtain ⟨ih1, ih2⟩ := ih (f g a)
    obtain ⟨h1, h2⟩ := h g a
    refine ⟨?_, fun hnd => ih2 (h2 hnd)⟩
    intro e
    rw [List.foldl_cons, ih1 e, h1 e]
    simp only [List.mem_cons, exists_eq_or_imp, not_or]
    by_cases hK : K a e.1 <;> by_cases hR : (∃ a ∈ rest, K a e.1) <;> simp [hK, hR]

theorem SetsKeys.Set_one (K : Labels → Prop) (k : Labels) (hK : ∀ k', K k' ↔ k' = k)
    (g : GaugeVec) :
    (∀ e, e ∈ Set g k 1 ↔ (e.2 = 1 ∧ K e.1) ∨ (e ∈ g ∧ ¬ K e.1)) ∧
    ((keys g).Nodup → (keys (Set g k 1)).Nodup) := by
  refine ⟨?_, nodup_keys_Set g k 1⟩
  intro e
  rw [mem_Set, hK]
  constructor
  · rintro (rfl | h)
    · left; exact ⟨rfl, rfl⟩
    · right; exact h
  · rintro (⟨h1, h2⟩ | h)
    · left; exact Prod.ext h2 h1
    · right; exact h

theorem SetsKeys.skip (K : Labels → Prop) (hK : ∀ k', ¬ K k') (g : GaugeVec) :
    (∀ e, e ∈ g ↔ (e.2 = 1 ∧ K e.1) ∨ (e ∈ g ∧ ¬ K e.1)) ∧
    ((keys g).Nodup → (keys g).Nodup) := by
  refine ⟨?_, id⟩
  intro e
  simp [hK]

end GaugeVec

/-! ## The package collector -/

namespace packages

theorem lineRecord_iff_Split (cfg : Config) (line : Str) (k : Labels) :
    lineRecord cfg line k ↔
      ∃ name version : Str, strings.Split line ['|'] = [name, version] ∧ k = [name, version] ∧
        name ∉ cfg.ExcludePackages := by
  unfold lineRecord
  constructor
  · rintro ⟨n, v, hk, hl, hc, hex⟩
    have hl' : line = n ++ '|' :: v := by simpa using hl
    rw [hl', strings.count_eq_one_of_append] at hc
    exact ⟨n, v, (strings.Split_single_eq_pair_iff _ _ _ _).2 ⟨hl', hc.1, hc.2⟩, hk, hex⟩
  · rintro ⟨n, v, hs, hk, hex⟩
    obtain ⟨hl, h1, h2⟩ := (strings.Split_single_eq_pair_iff _ _ _ _).1 hs
    refine ⟨n, v, hk, by simpa using hl, ?_, hex⟩
    rw [hl, strings.count_eq_one_of_append]
    exact ⟨h1, h2⟩

theorem recordLine_setsKeys (cfg : Config) :
    GaugeVec.SetsKeys (recordLine cfg) (lineRecord cfg) := by
  intro g line
  unfold recordLine
  by_cases hl : line = []
  · rw [if_pos hl]
    apply GaugeVec.SetsKeys.skip
    intro k hk
    obtain ⟨n, v, _, hline, _⟩ := hk
    rw [hl] at hline
    simp at hline
  · rw [if_neg hl]
    rcases hparts : strings.Split line ['|'] with _ | ⟨p0, _ | ⟨p1, _ | ⟨p2, rest⟩⟩⟩
    · apply GaugeVec.SetsKeys.skip
      intro k hk
      obtain ⟨n, v, hs, _⟩ := (lineRecord_iff_Split cfg line k).1 hk
      rw [hparts] at hs
      simp at hs
    · apply GaugeVec.SetsKeys.skip
      intro k hk
      obtain ⟨n, v, hs, _⟩ := (lineRecord_iff_Split cfg line k).1 hk
      rw [hparts] at hs
      simp at hs
    · by_cases hex : p0 ∈ cfg.ExcludePackages
      · simp only [hex, if_true]
        apply GaugeVec.SetsKeys.skip
        intro k hk
        obtain ⟨n, v, hs, _, hn⟩ := (lineRecord_iff_Split cfg line k).1 hk
        rw [hparts] at hs
        simp only [List.cons.injEq, and_true] at hs
        exact hn (hs.1 ▸ hex)
      · simp only [hex, if_false]
        apply GaugeVec.SetsKeys.Set_one
        intro k
        rw [lineRecord_iff_Split, hparts]
        constructor
        · rintro ⟨n, v, hs, hk, _⟩
          simp only [List.cons.injEq, and_true] at hs
          rw [hk, ← hs.1, ← hs.2]
        · intro hk
          exact ⟨p0, p1, rfl, hk, hex⟩
    · apply GaugeVec.SetsKeys.skip
      intro k hk
      obtain ⟨n, v, hs, _⟩ := (lineRecord_iff_Split cfg line k).1 hk
      rw [hparts] at hs
      simp at hs

theorem foldl_recordLine (cfg : Config) (lines : List Str) :
    RecordsExactly cfg lines (lines.foldl (recordLine cfg) []) := by
  obtain ⟨h1, h2⟩ := (recordLine_setsKeys cfg).foldl lines []
  refine ⟨?_, h2 (by simp [GaugeVec.keys])⟩
  intro k v
  rw [h1 (k, v)]
  simp

/-- Two gauges that record the same lines, in whatever order, hold the same value for
every label tuple. -/
theorem RecordsExactly.Get_eq (cfg : Config) (l1 l2 : List Str) (g1 g2 : GaugeVec)
    (hp : l1.Perm l2) (h1 : RecordsExactly cfg l1 g1) (h2 : RecordsExactly cfg l2 g2)
    (k : Labels) : GaugeVec.Get g1 k = GaugeVec.Get g2 k := by
  apply Option.ext
  intro v
  simp only [Option.mem_def]
  rw [GaugeVec.Get_eq_some_iff g1 h1.2, GaugeVec.Get_eq_some_iff g2 h2.2, h1.1, h2.1]
  constructor
  · rintro ⟨hv, line, hl, hr⟩
    exact ⟨hv, line, hp.mem_iff.1 hl, hr⟩
  · rintro ⟨hv, line, hl, hr⟩
    exact ⟨hv, line, hp.mem_iff.2 hl, hr⟩

theorem collectRPMPackages_gauge (cfg : Config) (w : Sources) (st : State) (output : Str)
    (h : w.output rpm = .ok output) :
    (collectRPMPackages cfg w st).1.packageInstalledGauge =
      (outputLines output).foldl (recordLine cfg) st.packageInstalledGauge := by
  simp [collectRPMPackages, h, State.ask]

theorem collectDPKGPackages_gauge (cfg : Config) (w : Sources) (st : State) (output : Str)
    (h : w.output dpkgQuery = .ok output) :
    (collectDPKGPackages cfg w st).1.packageInstalledGauge =
      (outputLines output).foldl (recordLine cfg) st.packageInstalledGauge := by
  simp [collectDPKGPackages, h, State.ask]

theorem Split_joinLines (lines : List Str) (hne : lines ≠ []) (h : ∀ l ∈ lines, '\n' ∉ l) :
    strings.Split (joinLines lines) ['\n'] = lines := by
  induction lines with
  | nil => exact absurd rfl hne
  | cons l rest ih =>
    cases rest with
    | nil =>
      simp only [joinLines]
      exact strings.Split_single_of_not_mem l '\n' (h l (by simp))
    | cons l2 rest2 =>
      simp only [joinLines]
      rw [strings.Split_single_append l _ '\n' (h l (by simp)),
        ih (by simp) (fun x hx => h x (List.mem_cons_of_mem _ hx))]

theorem TrimSpace_terminated (s : Str) (c d : Char) (t u : Str) (hs : s = c :: t)
    (hc : strings.isSpace c = false) (he : s = u ++ [d]) (hd : strings.isSpace d = false) :
    strings.TrimSpace (s ++ ['\n']) = s := by
  unfold strings.TrimSpace
  have h1 : List.dropWhile strings.isSpace (s ++ ['\n']) = s ++ ['\n'] := by
    rw [hs, List.cons_append, List.dropWhile_cons_of_neg (by simp [hc])]
  have h2 : (s ++ ['\n']).reverse = '\n' :: d :: u.reverse := by
    rw [he]; simp
  have hn : strings.isSpace '\n' = true := by decide
  rw [h1, h2, List.dropWhile_cons_of_pos hn, List.dropWhile_cons_of_neg (by simp [hd]), he]
  simp

/-- The lines the collectors iterate over are the lines the tool printed, each ended by a
newline, when the output neither begins nor ends with white space. -/
theorem outputLines_joinLines (lines : List Str) (h : ∀ l ∈ lines, '\n' ∉ l)
    (c d : Char) (t u : Str) (hs : joinLines lines = c :: t) (hc : strings.isSpace c = false)
    (he : joinLines lines = u ++ [d]) (hd : strings.isSpace d = false) :
    outputLines (joinLines lines ++ ['\n']) = lines := by
  have hne : lines ≠ [] := by
    rintro rfl
    simp [joinLines] at hs
  unfold outputLines
  rw [TrimSpace_terminated _ c d t u hs hc he hd, Split_joinLines lines hne h]

/-- C4, counterexample: `rpm` prints the two lines `b|2` and `a|1 `.  The line `a|1 ` is
`a`, `|`, `1 ` with exactly one `|`, yet the gauge holds `(a, "1")` and no entry for
`(a, "1 ")`, the space at the end of the output being trimmed before the lines are
split; and with the same two lines printed in the other order the gauge does hold
`(a, "1 ")`. -/
theorem printed_lines_are_trimmed_counterexample :
    joinLines ["b|2".toList, "a|1 ".toList] ++ ['\n'] = "b|2\na|1 \n".toList ∧
    joinLines ["a|1 ".toList, "b|2".toList] ++ ['\n'] = "a|1 \nb|2\n".toList ∧
    ["a|1 ".toList, "b|2".toList].Perm ["b|2".toList, "a|1 ".toList] ∧
    lineRecord ⟨[]⟩ "a|1 ".toList ["a".toList, "1 ".toList] ∧
    (collectRPMPackages ⟨[]⟩ trailingSpaceLastSources emptyState).1.packageInstalledGauge =
      [(["b".toList, "2".toList], 1), (["a".toList, "1".toList], 1)] ∧
    ¬ RecordsExactly ⟨[]⟩ ["b|2".toList, "a|1 ".toList]
      (collectRPMPackages ⟨[]⟩ trailingSpaceLastSources emptyState).1.packageInstalledGauge ∧
    GaugeVec.Get
      (collectRPMPackages ⟨[]⟩ trailingSpaceLastSources emptyState).1.packageInstalledGauge
      ["a".toList, "1 ".toList] = none ∧
    GaugeVec.Get
      (collectRPMPackages ⟨[]⟩ trailingSpaceFirstSources emptyState).1.packageInstalledGauge
      ["a".toList, "1 ".toList] = some 1 := by
  have hrec : lineRecord ⟨[]⟩ "a|1 ".toList ["a".toList, "1 ".toList] :=
    ⟨"a".toList, "1 ".toList, rfl, by decide, by decide, by decide⟩
  refine ⟨by decide, by decide, List.Perm.swap _ _ _, hrec, by decide, ?_, by decide,
    by decide⟩
  intro h
  have hmem := (h.1 ["a".toList, "1 ".toList] 1).2 ⟨rfl, "a|1 ".toList, by decide, hrec⟩
  revert hmem
  decide

/-- C4, amended: starting from an empty package gauge, `collectRPMPackages` (and
identically `collectDPKGPackages`) leaves the value `1` for exactly the label pairs
`[name, version]` such that some line of `outputLines output`, the output trimmed of the
white space at its two ends and then split at the newlines, is `name|version` with
exactly one `|` and `name` is not excluded, each in one entry; two outputs whose such
lines are a permutation of one another give the same value for every label tuple; and
these lines are the lines the tool printed when the output neither begins nor ends with
white space, its last newline apart. -/
theorem package_gauge_is_exactly_the_well_formed_lines (cfg : Config) (w : Sources)
    (st : State) (output : Str) (hempty : st.packageInstalledGauge = []) :
    (w.output rpm = .ok output →
      RecordsExactly cfg (outputLines output)
        (collectRPMPackages cfg w st).1.packageInstalledGauge) ∧
    (w.output dpkgQuery = .ok output →
      RecordsExactly cfg (outputLines output)
        (collectDPKGPackages cfg w st).1.packageInstalledGauge) ∧
    (∀ (w2 : Sources) (output2 : Str), (outputLines output2).Perm (outputLines output) →
      (w.output rpm = .ok output → w2.output rpm = .ok output2 →
        ∀ k, GaugeVec.Get (collectRPMPackages cfg w2 st).1.packageInstalledGauge k =
          GaugeVec.Get (collectRPMPackages cfg w st).1.packageInstalledGauge k) ∧
      (w.output dpkgQuery = .ok output → w2.output dpkgQuery = .ok output2 →
        ∀ k, GaugeVec.Get (collectDPKGPackages cfg w2 st).1.packageInstalledGauge k =
          GaugeVec.Get (collectDPKGPackages cfg w st).1.packageInstalledGauge k)) ∧
    (∀ (lines : List Str) (c d : Char) (t u : Str), (∀ l ∈ lines, '\n' ∉ l) →
      joinLines lines = c :: t → strings.isSpace c = false →
      joinLines lines = u ++ [d] → strings.isSpace d = false →
      output = joinLines lines ++ ['\n'] → outputLines output = lines) := by
  have hr : ∀ (w : Sources) (output : Str), w.output rpm = .ok output →
      RecordsExactly cfg (outputLines output)
        (collectRPMPackages cfg w st).1.packageInstalledGauge := by
    intro w output h
    rw [collectRPMPackages_gauge cfg w st output h, hempty]
    exact foldl_recordLine cfg _
  have hd : ∀ (w : Sources) (output : Str), w.output dpkgQuery = .ok output →
      RecordsExactly cfg (outputLines output)
        (collectDPKGPackages cfg w st).1.packageInstalledGauge := by
    intro w output h
    rw [collectDPKGPackages_gauge cfg w st output h, hempty]
    exact foldl_recordLine cfg _
  refine ⟨hr w output, hd w output, ?_, ?_⟩
  · intro w2 output2 hperm
    refine ⟨?_, ?_⟩
    · intro h1 h2 k
      exact RecordsExactly.Get_eq cfg _ _ _ _ hperm (hr w2 output2 h2) (hr w output h1) k
    · intro h1 h2 k
      exact RecordsExactly.Get_eq cfg _ _ _ _ hperm (hd w2 output2 h2) (hd w output h1) k
  · intro lines c d t u hl hs hc he hd' hout
    rw [hout]
    exact outputLines_joinLines lines hl c d t u hs hc he hd'

end packages

/-! ## The port collector -/

namespace ports

theorem entryRecord_iff_Split (zone entry : Str) (k : Labels) :
    entryRecord zone entry k ↔
      ∃ port protocol : Str, splitPortProtocol entry = [port, protocol] ∧
        k = [port, protocol, zone] := by
  unfold entryRecord splitPortProtocol
  constructor
  · rintro ⟨n, v, hk, hl, hc⟩
    have hl' : entry = n ++ '/' :: v := by simpa using hl
    rw [hl', strings.count_eq_one_of_append] at hc
    exact ⟨n, v, (strings.Split_single_eq_pair_iff _ _ _ _).2 ⟨hl', hc.1, hc.2⟩, hk⟩
  · rintro ⟨n, v, hs, hk⟩
    obtain ⟨hl, h1, h2⟩ := (strings.Split_single_eq_pair_iff _ _ _ _).1 hs
    refine ⟨n, v, hk, by simpa using hl, ?_⟩
    rw [hl, strings.count_eq_one_of_append]
    exact ⟨h1, h2⟩

theorem recordPort_setsKeys (zone : Str) :
    GaugeVec.SetsKeys (recordPort zone) (entryRecord zone) := by
  intro g entry
  unfold recordPort
  rcases hparts : splitPortProtocol entry with _ | ⟨p0, _ | ⟨p1, _ | ⟨p2, rest⟩⟩⟩
  · apply GaugeVec.SetsKeys.skip
    intro k hk
    obtain ⟨n, v, hs, _⟩ := (entryRecord_iff_Split zone entry k).1 hk
    rw [hparts] at hs
    simp at hs
  · apply GaugeVec.SetsKeys.skip
    intro k hk
    obtain ⟨n, v, hs, _⟩ := (entryRecord_iff_Split zone entry k).1 hk
    rw [hparts] at hs
    simp at hs
  · apply GaugeVec.SetsKeys.Set_one
    intro k
    rw [entryRecord_iff_Split, hparts]
    constructor
    · rintro ⟨n, v, hs, hk⟩
      simp only [List.cons.injEq, and_true] at hs
      rw [hk, ← hs.1, ← hs.2]
    · intro hk
      exact ⟨p0, p1, rfl, hk⟩
  · apply GaugeVec.SetsKeys.skip
    intro k hk
    obtain ⟨n, v, hs, _⟩ := (entryRecord_iff_Split zone entry k).1 hk
    rw [hparts] at hs
    simp at hs

theorem zoneGauge_setsKeys (w : Sources) (hbus : w.systemBus = none) :
    GaugeVec.SetsKeys (zoneGauge w) (zoneRecord w) := by
  intro g zone
  unfold zoneGauge
  rw [hbus]
  simp only
  cases hl : w.listPorts zone with
  | error err =>
    apply GaugeVec.SetsKeys.skip
    rintro k ⟨entries, he, _⟩
    rw [hl] at he
    cases he
  | ok entries =>
    obtain ⟨h1, h2⟩ := (recordPort_setsKeys zone).foldl entries g
    refine ⟨?_, h2⟩
    intro e
    rw [h1 e]
    have hz : zoneRecord w zone e.1 ↔ ∃ a ∈ entries, entryRecord zone a e.1 := by
      unfold zoneRecord
      rw [hl]
      constructor
      · rintro ⟨entries', he, h⟩
        cases he
        exact h
      · intro h
        exact ⟨entries, rfl, h⟩
    rw [hz]

/-! ### Frame and effect of each step -/

theorem collectOpenPorts_gauges (w : Sources) (st : State) :
    (collectOpenPorts w st).1.gauges =
      (st.packageInstalledGauge, openGaugeAfter w st.portsOpenGauge, st.portsAuthorizedGauge) := by
  unfold collectOpenPorts openGaugeAfter
  cases w.connections <;> simp [State.gauges, State.ask]

theorem collectOpenPorts_queries (w : Sources) (st : State) :
    (collectOpenPorts w st).1.queries = st.queries ++ [.connections] := by
  unfold collectOpenPorts
  cases w.connections <;> simp [State.ask]

theorem recordZone_gauges (w : Sources) (st : State) (zone : Str) :
    (recordZone w st zone).gauges =
      (st.packageInstalledGauge, st.portsOpenGauge, zoneGauge w st.portsAuthorizedGauge zone) := by
  unfold recordZone getPortsForZone zoneGauge
  cases w.systemBus with
  | some err => simp [State.gauges, State.ask]
  | none =>
    cases w.listPorts zone <;> simp [State.gauges, State.ask]

theorem foldl_recordZone_gauges (w : Sources) (zones : List Str) :
    ∀ st : State, (zones.foldl (recordZone w) st).gauges =
      (st.packageInstalledGauge, st.portsOpenGauge,
        zones.foldl (zoneGauge w) st.portsAuthorizedGauge) := by
  induction zones with
  | nil => intro st; rfl
  | cons z rest ih =>
    intro st
    have h := recordZone_gauges w st z
    simp only [State.gauges, Prod.mk.injEq] at h
    rw [List.foldl_cons, ih, h.1, h.2.1, h.2.2]
    rfl

theorem collectAuthorizedPorts_gauges (w : Sources) (st : State) :
    (collectAuthorizedPorts w st).1.gauges =
      (st.packageInstalledGauge, st.portsOpenGauge,
        authorizedGaugeAfter w st.portsAuthorizedGauge) := by
  unfold collectAuthorizedPorts getFirewallZones authorizedGaugeAfter
  cases w.systemBus with
  | some err => simp [State.gauges, State.ask]
  | none =>
    cases w.getZones with
    | error err => simp [State.gauges, State.ask]
    | ok zones =>
      simp only
      rw [foldl_recordZone_gauges]
      simp [State.ask]

theorem collectAuthorizedPorts_queries (w : Sources) (st : State) :
    ∃ rest, (collectAuthorizedPorts w st).1.queries = st.queries ++ .systemBus :: rest := by
  have hz : ∀ (zones : List Str) (st : State),
      ∃ rest, (zones.foldl (recordZone w) st).queries = st.queries ++ rest := by
    intro zones
    induction zones with
    | nil => intro st; exact ⟨[], by simp⟩
    | cons z rest ih =>
      intro st
      obtain ⟨r, hr⟩ := ih (recordZone w st z)
      have h1 : ∃ r1, (recordZone w st z).queries = st.queries ++ r1 := by
        unfold recordZone getPortsForZone
        cases w.systemBus with
        | some err => exact ⟨[.systemBus], by simp [State.ask]⟩
        | none =>
          cases w.listPorts z with
          | error err => exact ⟨[.systemBus, .listPorts z], by simp [State.ask]⟩
          | ok ports => exact ⟨[.systemBus, .listPorts z], by simp [State.ask]⟩
      obtain ⟨r1, hr1⟩ := h1
      exact ⟨r1 ++ r, by rw [List.foldl_cons, hr, hr1, List.append_assoc]⟩
  unfold collectAuthorizedPorts getFirewallZones
  cases w.systemBus with
  | some err => exact ⟨[], by simp [State.ask]⟩
  | none =>
    cases w.getZones with
    | error err => exact ⟨[.getZones], by simp [State.ask]⟩
    | ok zones =>
      obtain ⟨r, hr⟩ := hz zones ((st.ask .systemBus).ask .getZones)
      exact ⟨.getZones :: r, by simp only [hr]; simp [State.ask]⟩

theorem portCollect_gauges (w : Sources) (st : State) :
    (Collect w st).1.gauges =
      (st.packageInstalledGauge, openGaugeAfter w st.portsOpenGauge,
        authorizedGaugeAfter w st.portsAuthorizedGauge) := by
  have h1 := collectOpenPorts_gauges w st
  have h2 := collectAuthorizedPorts_gauges w (collectOpenPorts w st).1
  simp only [State.gauges, Prod.mk.injEq] at h1 h2
  simp only [Collect, State.gauges, Prod.mk.injEq]
  rw [h2.1, h2.2.1, h2.2.2, h1.1, h1.2.1, h1.2.2]
  exact ⟨rfl, rfl, rfl⟩

theorem portCollect_queries (w : Sources) (st : State) :
    ∃ rest, (Collect w st).1.queries =
      st.queries ++ Query.connections :: Query.systemBus :: rest := by
  obtain ⟨rest, h⟩ := collectAuthorizedPorts_queries w (collectOpenPorts w st).1
  refine ⟨rest, ?_⟩
  simp only [Collect]
  rw [h, collectOpenPorts_queries]
  simp

theorem openLabels_setsKeys (w : Sources) :
    GaugeVec.SetsKeys (fun g conn => GaugeVec.Set g (openLabels w conn) 1)
      (fun conn k => k = openLabels w conn) := by
  intro g conn
  exact GaugeVec.SetsKeys.Set_one _ _ (fun _ => Iff.rfl) g

theorem mem_openGaugeAfter (w : Sources) (conns : List ConnectionStat)
    (h : w.connections = .ok conns) (g : GaugeVec) (e : Labels × Nat) :
    e ∈ openGaugeAfter w g ↔
      (e.2 = 1 ∧ ∃ conn ∈ conns, e.1 = openLabels w conn) ∨
      (e ∈ g ∧ ¬ ∃ conn ∈ conns, e.1 = openLabels w conn) := by
  unfold openGaugeAfter
  rw [h]
  exact ((openLabels_setsKeys w).foldl conns g).1 e

theorem mem_authorizedGaugeAfter (w : Sources) (zones : List Str) (hbus : w.systemBus = none)
    (hz : w.getZones = .ok zones) (g : GaugeVec) (e : Labels × Nat) :
    e ∈ authorizedGaugeAfter w g ↔
      (e.2 = 1 ∧ ∃ zone ∈ zones, zoneRecord w zone e.1) ∨
      (e ∈ g ∧ ¬ ∃ zone ∈ zones, zoneRecord w zone e.1) := by
  unfold authorizedGaugeAfter
  rw [hbus, hz]
  exact ((zoneGauge_setsKeys w hbus).foldl zones g).1 e

theorem nodup_authorizedGaugeAfter (w : Sources) (g : GaugeVec)
    (h : (GaugeVec.keys g).Nodup) : (GaugeVec.keys (authorizedGaugeAfter w g)).Nodup := by
  unfold authorizedGaugeAfter
  cases hbus : w.systemBus with
  | some err => exact h
  | none =>
    cases w.getZones with
    | error err => exact h
    | ok zones => exact ((zoneGauge_setsKeys w hbus).foldl zones g).2 h

/-- C5: when the zone list is obtained, `collectAuthorizedPorts` started on an empty
authorized-ports gauge leaves the value `1` for exactly the label triples
`[port, protocol, zone]` such that the query of `zone` succeeded and one of its entries is
`port/protocol` with exactly one `/`, each in one entry; `8080/tcp` in a zone `z` sets
`["8080", "tcp", z]` and `invalid` sets nothing. -/
theorem authorized_gauge_is_exactly_the_well_formed_entries (w : Sources) (st : State)
    (zones : List Str) (hbus : w.systemBus = none) (hz : w.getZones = .ok zones)
    (hempty : st.portsAuthorizedGauge = []) :
    (∀ (k : Labels) (v : Nat), (k, v) ∈ (collectAuthorizedPorts w st).1.portsAuthorizedGauge ↔
      v = 1 ∧ ∃ zone ∈ zones, zoneRecord w zone k) ∧
    (GaugeVec.keys (collectAuthorizedPorts w st).1.portsAuthorizedGauge).Nodup ∧
    (collectAuthorizedPorts w st).2 = none ∧
    (∀ (z : Str) (g : GaugeVec), recordPort z g "8080/tcp".toList =
      GaugeVec.Set g ["8080".toList, "tcp".toList, z] 1) ∧
    (∀ (z : Str) (g : GaugeVec), recordPort z g "invalid".toList = g) := by
  have hg := collectAuthorizedPorts_gauges w st
  simp only [State.gauges, Prod.mk.injEq] at hg
  rw [hg.2.2, hempty]
  refine ⟨?_, ?_, ?_, ?_, ?_⟩
  · intro k v
    rw [mem_authorizedGaugeAfter w zones hbus hz]
    simp
  · exact nodup_authorizedGaugeAfter w [] (by simp [GaugeVec.keys])
  · simp [collectAuthorizedPorts, getFirewallZones, hbus, hz]
  · intro z g
    have hs : splitPortProtocol "8080/tcp".toList = ["8080".toList, "tcp".toList] := by decide
    simp only [recordPort, hs]
  · intro z g
    have hs : splitPortProtocol "invalid".toList = ["invalid".toList] := by decide
    simp only [recordPort, hs]

/-- The label values of a connection, spelled out: the protocol name of its type, its
local port and its pid in decimal, its local address, the name of its process (empty for
pid `0` or a failed lookup) and an empty interface. -/
theorem openLabels_eq (w : Sources) (conn : ConnectionStat) :
    openLabels w conn =
      [if conn.type = 1 then "tcp".toList
        else if conn.type = 2 then "udp".toList else "unknown".toList,
       (toString conn.laddrPort).toList, conn.laddrIP, (toString conn.pid).toList,
       if conn.pid = 0 then [] else (w.processName conn.pid).getD [], []] := by
  have h1 : getProtocolType conn.type =
      if conn.type = 1 then "tcp".toList
      else if conn.type = 2 then "udp".toList else "unknown".toList := by
    unfold getProtocolType
    split
    · rfl
    · split <;> rfl
  have h2 : getProcessName w conn.pid =
      if conn.pid = 0 then [] else (w.processName conn.pid).getD [] := by
    unfold getProcessName
    split
    · rfl
    · cases w.processName conn.pid <;> rfl
  have h3 : fmtD (conn.laddrPort : Int) = (toString conn.laddrPort).toList := rfl
  have h4 : fmtD conn.pid = (toString conn.pid).toList := rfl
  unfold openLabels
  rw [h1, h2, h3, h4]

theorem nodup_openGaugeAfter (w : Sources) (g : GaugeVec) (h : (GaugeVec.keys g).Nodup) :
    (GaugeVec.keys (openGaugeAfter w g)).Nodup := by
  unfold openGaugeAfter
  cases w.connections with
  | error err => exact h
  | ok conns => exact ((openLabels_setsKeys w).foldl conns g).2 h

/-- C3: `PortCollector.Collect` returns no error, queries the connection table and then
the firewall bus whatever the answers, and changes each gauge as its own sub-collection
alone would.  So, also when the firewall fails, every enumerated connection has in the
open-ports gauge the entry of its six label values (protocol name of its type, local
port, local address, pid, process name, empty interface), and from an empty gauge these
are the only entries, one for each distinct tuple; and, also when connection enumeration
fails, every well-formed entry of every zone whose query succeeded has its entry in the
authorized-ports gauge. -/
theorem port_sub_collections_are_isolated (w : Sources) (st : State) :
    (Collect w st).2 = none ∧
    (∃ rest, (Collect w st).1.queries =
      st.queries ++ Query.connections :: Query.systemBus :: rest) ∧
    (Collect w st).1.portsOpenGauge = (collectOpenPorts w st).1.portsOpenGauge ∧
    (Collect w st).1.portsAuthorizedGauge =
      (collectAuthorizedPorts w st).1.portsAuthorizedGauge ∧
    (∀ conns : List ConnectionStat, w.connections = .ok conns →
      ∀ conn ∈ conns,
        ([if conn.type = 1 then "tcp".toList
            else if conn.type = 2 then "udp".toList else "unknown".toList,
          (toString conn.laddrPort).toList, conn.laddrIP, (toString conn.pid).toList,
          if conn.pid = 0 then [] else (w.processName conn.pid).getD [], []], 1) ∈
          (Collect w st).1.portsOpenGauge) ∧
    (∀ conns : List ConnectionStat, w.connections = .ok conns → st.portsOpenGauge = [] →
      (∀ (k : Labels) (v : Nat), (k, v) ∈ (Collect w st).1.portsOpenGauge ↔
        v = 1 ∧ ∃ conn ∈ conns, k =
          [if conn.type = 1 then "tcp".toList
            else if conn.type = 2 then "udp".toList else "unknown".toList,
           (toString conn.laddrPort).toList, conn.laddrIP, (toString conn.pid).toList,
           if conn.pid = 0 then [] else (w.processName conn.pid).getD [], []]) ∧
      (GaugeVec.keys (Collect w st).1.portsOpenGauge).Nodup) ∧
    (∀ zones : List Str, w.systemBus = none → w.getZones = .ok zones →
      ∀ zone ∈ zones, ∀ k, zoneRecord w zone k →
        (k, 1) ∈ (Collect w st).1.portsAuthorizedGauge) := by
  have hg := portCollect_gauges w st
  have ho := collectOpenPorts_gauges w st
  have ha := collectAuthorizedPorts_gauges w st
  simp only [State.gauges, Prod.mk.injEq] at hg ho ha
  refine ⟨rfl, portCollect_queries w st, ?_, ?_, ?_, ?_, ?_⟩
  · rw [hg.2.1, ho.2.1]
  · rw [hg.2.2, ha.2.2]
  · intro conns hc conn hmem
    rw [hg.2.1, mem_openGaugeAfter w conns hc, ← openLabels_eq]
    exact Or.inl ⟨rfl, conn, hmem, rfl⟩
  · intro conns hc hempty
    rw [hg.2.1, hempty]
    refine ⟨?_, nodup_openGaugeAfter w [] (by simp [GaugeVec.keys])⟩
    intro k v
    rw [mem_openGaugeAfter w conns hc]
    simp only [List.not_mem_nil, false_and, or_false]
    constructor
    · rintro ⟨hv, conn, hmem, hk⟩
      exact ⟨hv, conn, hmem, by rw [← openLabels_eq]; exact hk⟩
    · rintro ⟨hv, conn, hmem, hk⟩
      exact ⟨hv, conn, hmem, by rw [openLabels_eq]; exact hk⟩
  · intro zones hbus hz zone hmem k hk
    rw [hg.2.2, mem_authorizedGaugeAfter w zones hbus hz]
    exact Or.inl ⟨rfl, zone, hmem, hk⟩

end ports

/-! ## The collection engine -/

namespace packages

theorem pkgCollect_error (cfg : Config) (w : Sources) (st : State) :
    (Collect cfg w st).2 = errorOf w := by
  unfold Collect errorOf collectRPMPackages collectDPKGPackages
  cases w.lookPath rpm
  · cases w.lookPath dpkgQuery
    · simp
    · cases w.output dpkgQuery <;> simp
  · cases w.output rpm <;> simp

theorem pkgCollect_gauges (cfg : Config) (w : Sources) (st : State) :
    (Collect cfg w st).1.gauges =
      (gaugeAfter cfg w st.packageInstalledGauge, st.portsOpenGauge,
        st.portsAuthorizedGauge) := by
  unfold Collect gaugeAfter collectRPMPackages collectDPKGPackages
  cases w.lookPath rpm
  · cases w.lookPath dpkgQuery
    · simp [State.gauges, State.ask]
    · cases w.output dpkgQuery <;> simp [State.gauges, State.ask]
  · cases w.output rpm <;> simp [State.gauges, State.ask]

theorem gaugeAfter_of_error (cfg : Config) (w : Sources) (g : GaugeVec) (e : Error)
    (h : errorOf w = some e) : gaugeAfter cfg w g = g := by
  unfold errorOf at h
  unfold gaugeAfter
  cases h1 : w.lookPath rpm
  · cases h2 : w.lookPath dpkgQuery
    · simp
    · cases ho : w.output dpkgQuery with
      | error err => simp
      | ok out => simp [h1, h2, ho] at h
  · cases ho : w.output rpm with
    | error err => simp
    | ok out => simp [h1, ho] at h

theorem errorOf_eq_some_iff (w : Sources) (e : Error) :
    errorOf w = some e ↔
      (w.lookPath rpm = true ∧ w.output rpm = .error e) ∨
      (w.lookPath rpm = false ∧ w.lookPath dpkgQuery = true ∧
        w.output dpkgQuery = .error e) := by
  unfold errorOf
  cases w.lookPath rpm
  · cases w.lookPath dpkgQuery
    · simp
    · cases w.output dpkgQuery <;> simp
  · cases w.output rpm <;> simp

/-- The queries `PackageCollector.Collect` sends all go to the package tools. -/
theorem pkgCollect_queries (cfg : Config) (w : Sources) (st : State) :
    ∃ new, (Collect cfg w st).1.queries = st.queries ++ new ∧
      ∀ q ∈ new, q = Query.lookPath rpm ∨ q = Query.lookPath dpkgQuery ∨
        q = Query.run rpm ∨ q = Query.run dpkgQuery := by
  unfold Collect collectRPMPackages collectDPKGPackages
  cases w.lookPath rpm
  · cases w.lookPath dpkgQuery
    · exact ⟨[.lookPath rpm, .lookPath dpkgQuery], by simp [State.ask], by simp⟩
    · refine ⟨[.lookPath rpm, .lookPath dpkgQuery, .run dpkgQuery], ?_, by simp⟩
      cases w.output dpkgQuery <;> simp [State.ask]
  · refine ⟨[.lookPath rpm, .run rpm], ?_, by simp⟩
    cases w.output rpm <;> simp [State.ask]

end packages

namespace collector

theorem engineCollect_error (cfg : Config) (w : Sources) (st : State) :
    (Collect cfg w st).2 = packages.errorOf w := by
  have h := packages.pkgCollect_error cfg w (ports.Reset (packages.Reset st))
  unfold Collect
  simp only
  cases hp : packages.Collect cfg w (ports.Reset (packages.Reset st)) with
  | mk st1 err =>
    rw [hp] at h
    simp only at h
    cases err with
    | some e => simpa using h
    | none =>
      simp only
      cases hq : ports.Collect w st1 with
      | mk st2 err2 =>
        have h2 : (ports.Collect w st1).2 = none := rfl
        rw [hq] at h2
        simp only at h2
        subst h2
        simpa using h

theorem engineCollect_state (cfg : Config) (w : Sources) (st : State) :
    (Collect cfg w st).1 =
      match packages.errorOf w with
      | some _ => (packages.Collect cfg w (ports.Reset (packages.Reset st))).1
      | none =>
        (ports.Collect w (packages.Collect cfg w (ports.Reset (packages.Reset st))).1).1 := by
  have h := packages.pkgCollect_error cfg w (ports.Reset (packages.Reset st))
  unfold Collect
  simp only
  cases hp : packages.Collect cfg w (ports.Reset (packages.Reset st)) with
  | mk st1 err =>
    rw [hp] at h
    simp only at h
    rw [← h]
    cases err with
    | some e => rfl
    | none =>
      simp only
      cases hq : ports.Collect w st1 with
      | mk st2 err2 =>
        have h2 : (ports.Collect w st1).2 = none := rfl
        rw [hq] at h2
        simp only at h2
        subst h2
        rfl

theorem engineCollect_gauges (cfg : Config) (w : Sources) (st : State) :
    (Collect cfg w st).1.gauges =
      match packages.errorOf w with
      | some _ => ([], [], [])
      | none =>
        (packages.gaugeAfter cfg w [], ports.openGaugeAfter w [],
          ports.authorizedGaugeAfter w []) := by
  rw [engineCollect_state]
  cases he : packages.errorOf w with
  | some e =>
    simp only
    rw [packages.pkgCollect_gauges, packages.gaugeAfter_of_error cfg w _ e he]
    rfl
  | none =>
    simp only
    have h1 := packages.pkgCollect_gauges cfg w (ports.Reset (packages.Reset st))
    simp only [State.gauges, Prod.mk.injEq] at h1
    rw [ports.portCollect_gauges, h1.1, h1.2.1, h1.2.2]
    rfl

theorem errorOf_congr (w w2 : Sources) (h1 : w2.lookPath = w.lookPath)
    (h2 : w2.output = w.output) : packages.errorOf w2 = packages.errorOf w := by
  unfold packages.errorOf
  rw [h1, h2]

/-- C1: `Collector.Collect` returns the error of the package step, and nothing else: its
result is the result of `PackageCollector.Collect` on the reset state, it is an error `e`
exactly when the selected package tool failed with `e`, and it is the same for any other
answers of the connection table and of the firewall. -/
theorem Collect_returns_exactly_the_package_error (cfg : Config) (w : Sources) (st : State) :
    (Collect cfg w st).2 = (packages.Collect cfg w (ports.Reset (packages.Reset st))).2 ∧
    (∀ e : Error, (Collect cfg w st).2 = some e ↔
      (w.lookPath rpm = true ∧ w.output rpm = .error e) ∨
      (w.lookPath rpm = false ∧ w.lookPath dpkgQuery = true ∧
        w.output dpkgQuery = .error e)) ∧
    (∀ w2 : Sources, w2.lookPath = w.lookPath → w2.output = w.output →
      (Collect cfg w2 st).2 = (Collect cfg w st).2) := by
  refine ⟨?_, ?_, ?_⟩
  · rw [engineCollect_error, packages.pkgCollect_error]
  · intro e
    rw [engineCollect_error, packages.errorOf_eq_some_iff]
  · intro w2 h1 h2
    rw [engineCollect_error, engineCollect_error, errorOf_congr w w2 h1 h2]

/-- Witness of C1: with the bus out of reach, or the connection table unreadable, the
pass of the sample host returns no error, as it does when both answer. -/
theorem Collect_returns_exactly_the_package_error_witness :
    (Collect sampleConfig firewallDownSources emptyState).2 = none ∧
    (Collect sampleConfig noConnectionsSources emptyState).2 = none ∧
    (Collect sampleConfig firewallDownSources emptyState).2 =
      (Collect sampleConfig sampleSources emptyState).2 :=
  ⟨by decide, by decide,
    (Collect_returns_exactly_the_package_error sampleConfig sampleSources emptyState).2.2
      firewallDownSources rfl rfl⟩

/-- C2: when the selected package tool is present and its invocation fails with `e`, the
pass returns `e`, sends no query to the connection table or to the firewall, and leaves
the three gauges empty. -/
theorem failed_package_step_skips_the_port_step (cfg : Config) (w : Sources) (st : State)
    (e : Error)
    (h : (w.lookPath rpm = true ∧ w.output rpm = .error e) ∨
      (w.lookPath rpm = false ∧ w.lookPath dpkgQuery = true ∧
        w.output dpkgQuery = .error e)) :
    (Collect cfg w st).2 = some e ∧
    (Collect cfg w st).1.gauges = ([], [], []) ∧
    (∃ new, (Collect cfg w st).1.queries = st.queries ++ new ∧
      ∀ q ∈ new, q ≠ Query.connections ∧ q ≠ Query.systemBus ∧ q ≠ Query.getZones ∧
        ∀ z, q ≠ Query.listPorts z) := by
  have he : packages.errorOf w = some e := (packages.errorOf_eq_some_iff w e).2 h
  refine ⟨by rw [engineCollect_error, he], by rw [engineCollect_gauges, he], ?_⟩
  rw [engineCollect_state, he]
  simp only
  obtain ⟨new, h1, h2⟩ := packages.pkgCollect_queries cfg w (ports.Reset (packages.Reset st))
  refine ⟨new, by rw [h1]; rfl, ?_⟩
  intro q hq
  rcases h2 q hq with rfl | rfl | rfl | rfl <;> simp

/-- Witness of C2: the sample host with a failing `rpm`, started on gauges that hold
entries of an earlier pass. -/
theorem failed_package_step_skips_the_port_step_witness :
    (Collect sampleConfig failingToolSources staleState).2 = some ⟨"exit status 1"⟩ ∧
    (Collect sampleConfig failingToolSources staleState).1.gauges = ([], [], []) ∧
    (Collect sampleConfig failingToolSources staleState).1.queries =
      [Query.lookPath rpm, Query.run rpm] :=
  ⟨(failed_package_step_skips_the_port_step sampleConfig failingToolSources staleState
      ⟨"exit status 1"⟩ (Or.inl ⟨by decide, rfl⟩)).1,
    (failed_package_step_skips_the_port_step sampleConfig failingToolSources staleState
      ⟨"exit status 1"⟩ (Or.inl ⟨by decide, rfl⟩)).2.1,
    by decide⟩

/-- C6: the three gauge vectors after `Collector.Collect` are the same from any two
states before the pass, hence the same as from empty gauges, and a second pass with the
same answers of the data sources leaves them as the first did. -/
theorem Collect_gauges_do_not_depend_on_previous_contents (cfg : Config) (w : Sources)
    (st1 st2 : State) :
    (Collect cfg w st1).1.gauges = (Collect cfg w st2).1.gauges ∧
    (Collect cfg w st1).1.gauges = (Collect cfg w emptyState).1.gauges ∧
    (Collect cfg w (Collect cfg w st1).1).1.gauges = (Collect cfg w st1).1.gauges := by
  refine ⟨?_, ?_, ?_⟩ <;> rw [engineCollect_gauges, engineCollect_gauges]

end collector

/-! ## The claims on the sample host -/

/-- Witness of C4: on the sample host the package gauge holds `bash 5.1` once, `vim`
being excluded and the line `bad` having one field; the four printed lines are the lines
the collector iterates over. -/
theorem package_gauge_is_exactly_the_well_formed_lines_witness :
    (packages.collectRPMPackages sampleConfig sampleSources emptyState).1.packageInstalledGauge
      = [(["bash".toList, "5.1".toList], 1)] ∧
    packages.RecordsExactly sampleConfig
      (packages.outputLines "bash|5.1\nvim|9.0\nbad\nbash|5.1\n".toList)
      (packages.collectRPMPackages sampleConfig sampleSources emptyState).1.packageInstalledGauge ∧
    packages.outputLines "bash|5.1\nvim|9.0\nbad\nbash|5.1\n".toList =
      ["bash|5.1".toList, "vim|9.0".toList, "bad".toList, "bash|5.1".toList] :=
  ⟨by decide,
    (packages.package_gauge_is_exactly_the_well_formed_lines sampleConfig sampleSources
      emptyState "bash|5.1\nvim|9.0\nbad\nbash|5.1\n".toList rfl).1 rfl,
    (packages.package_gauge_is_exactly_the_well_formed_lines sampleConfig sampleSources
      emptyState "bash|5.1\nvim|9.0\nbad\nbash|5.1\n".toList rfl).2.2.2
      ["bash|5.1".toList, "vim|9.0".toList, "bad".toList, "bash|5.1".toList] 'b' '1'
      "ash|5.1\nvim|9.0\nbad\nbash|5.1".toList "bash|5.1\nvim|9.0\nbad\nbash|5.".toList
      (by decide) (by decide) (by decide) (by decide) (by decide) (by decide)⟩

/-- Witness of C5: on the sample host the authorized-ports gauge holds `8080/tcp` of the
zone `public`, and nothing for `invalid` or for the zone `dmz` whose query fails. -/
theorem authorized_gauge_is_exactly_the_well_formed_entries_witness :
    (ports.collectAuthorizedPorts sampleSources emptyState).1.portsAuthorizedGauge
      = [(["8080".toList, "tcp".toList, "public".toList], 1)] ∧
    (∀ (k : Labels) (v : Nat),
      (k, v) ∈ (ports.collectAuthorizedPorts sampleSources emptyState).1.portsAuthorizedGauge ↔
        v = 1 ∧ ∃ zone ∈ ["public".toList, "dmz".toList], ports.zoneRecord sampleSources zone k) :=
  ⟨by decide,
    (ports.authorized_gauge_is_exactly_the_well_formed_entries sampleSources emptyState
      ["public".toList, "dmz".toList] rfl rfl rfl).1⟩

/-- Witness of C3: with the bus out of reach the two connections of the sample host have
their entries in the open-ports gauge, `tcp 22 0.0.0.0 100 sshd` and `unknown 53 :: 0`,
and these are two distinct entries; with the connection table unreadable the entry
`8080/tcp` of the zone `public` is in the authorized-ports gauge. -/
theorem port_sub_collections_are_isolated_witness :
    (["tcp".toList, "22".toList, "0.0.0.0".toList, "100".toList, "sshd".toList, []], 1) ∈
      (ports.Collect firewallDownSources emptyState).1.portsOpenGauge ∧
    (["unknown".toList, "53".toList, "::".toList, "0".toList, [], []], 1) ∈
      (ports.Collect firewallDownSources emptyState).1.portsOpenGauge ∧
    (GaugeVec.keys (ports.Collect firewallDownSources emptyState).1.portsOpenGauge).Nodup ∧
    (ports.Collect firewallDownSources emptyState).1.portsOpenGauge =
      [(["tcp".toList, "22".toList, "0.0.0.0".toList, "100".toList, "sshd".toList, []], 1),
       (["unknown".toList, "53".toList, "::".toList, "0".toList, [], []], 1)] ∧
    (["8080".toList, "tcp".toList, "public".toList], 1) ∈
      (ports.Collect noConnectionsSources emptyState).1.portsAuthorizedGauge :=
  ⟨(ports.port_sub_collections_are_isolated firewallDownSources emptyState).2.2.2.2.1
      [⟨1, "0.0.0.0".toList, 22, 100⟩, ⟨7, "::".toList, 53, 0⟩] rfl
      ⟨1, "0.0.0.0".toList, 22, 100⟩ (by decide),
    (ports.port_sub_collections_are_isolated firewallDownSources emptyState).2.2.2.2.1
      [⟨1, "0.0.0.0".toList, 22, 100⟩, ⟨7, "::".toList, 53, 0⟩] rfl
      ⟨7, "::".toList, 53, 0⟩ (by decide),
    ((ports.port_sub_collections_are_isolated firewallDownSources emptyState).2.2.2.2.2.1
      [⟨1, "0.0.0.0".toList, 22, 100⟩, ⟨7, "::".toList, 53, 0⟩] rfl rfl).2,
    by decide,
    (ports.port_sub_collections_are_isolated noConnectionsSources emptyState).2.2.2.2.2.2
      ["public".toList, "dmz".toList] rfl rfl "public".toList (by decide)
      ["8080".toList, "tcp".toList, "public".toList]
      ⟨["8080/tcp".toList, "invalid".toList], rfl, "8080/tcp".toList, by decide,
        "8080".toList, "tcp".toList, rfl, by decide, by decide⟩⟩

/-! ## Passes and scrapes under interleaving -/

namespace concurrent

theorem step_idle (cfg : Config) (w : Sources) (i : Nat) (s : System) (h : s.pc i = Pc.idle) :
    step cfg w i s =
      if s.mu then s else { s with mu := true, pc := Function.update s.pc i Pc.locked } := by
  unfold step
  rw [h]

theorem step_locked (cfg : Config) (w : Sources) (i : Nat) (s : System)
    (h : s.pc i = Pc.locked) :
    step cfg w i s =
      { s with st := ports.Reset (packages.Reset s.st),
               pc := Function.update s.pc i Pc.reset } := by
  unfold step
  rw [h]

theorem step_reset (cfg : Config) (w : Sources) (i : Nat) (s : System)
    (h : s.pc i = Pc.reset) :
    step cfg w i s =
      { s with st := (packages.Collect cfg w s.st).1,
               pc := Function.update s.pc i
                 (match packages.errorOf w with
                  | some err => Pc.returning (some err)
                  | none => Pc.packagesDone) } := by
  have he := packages.pkgCollect_error cfg w s.st
  unfold step
  rw [h]
  simp only
  cases hp : packages.Collect cfg w s.st with
  | mk st1 err =>
    rw [hp] at he
    simp only at he
    rw [← he]
    cases err <;> rfl

theorem step_packagesDone (cfg : Config) (w : Sources) (i : Nat) (s : System)
    (h : s.pc i = Pc.packagesDone) :
    step cfg w i s =
      { s with st := (ports.Collect w s.st).1,
               pc := Function.update s.pc i (Pc.returning none) } := by
  unfold step
  rw [h]
  rfl

theorem step_returning (cfg : Config) (w : Sources) (i : Nat) (s : System)
    (err : Option Error) (h : s.pc i = Pc.returning err) :
    step cfg w i s = { s with mu := false, pc := Function.update s.pc i Pc.idle } := by
  unfold step
  rw [h]

theorem Reset_gauges (st : State) :
    (ports.Reset (packages.Reset st)).gauges = ([], [], []) := rfl

/-- Every step keeps the invariant. -/
theorem Inv_step (cfg : Config) (w : Sources) (pre : GaugeVec × GaugeVec × GaugeVec)
    (i : Nat) (s : System)
    (h : Inv cfg w pre (collector.Collect cfg w emptyState).1.gauges s) :
    Inv cfg w pre (collector.Collect cfg w emptyState).1.gauges (step cfg w i s) := by
  have hpost := collector.engineCollect_gauges cfg w emptyState
  rcases h with ⟨hmu, hidle, hg⟩ | ⟨hmu, i0, hothers, hpc⟩
  · have hstep : step cfg w i s =
        { s with mu := true, pc := Function.update s.pc i Pc.locked } := by
      rw [step_idle cfg w i s (hidle i), hmu]
      rfl
    rw [hstep]
    right
    refine ⟨rfl, i, ?_, ?_⟩
    · intro j hj
      simp [Function.update_noteq hj, hidle j]
    · simp only [Function.update_same, PcInv]
      exact hg
  · by_cases hi : i = i0
    · subst hi
      cases hcase : s.pc i with
      | idle => rw [hcase] at hpc; exact absurd hpc (by simp [PcInv])
      | locked =>
        rw [step_locked cfg w i s hcase]
        right
        refine ⟨hmu, i, ?_, ?_⟩
        · intro j hj
          simp [Function.update_noteq hj, hothers j hj]
        · simp only [Function.update_same, PcInv]
          exact Reset_gauges s.st
      | reset =>
        rw [hcase] at hpc
        simp only [PcInv, State.gauges, Prod.mk.injEq] at hpc
        have hg := packages.pkgCollect_gauges cfg w s.st
        rw [hpc.1, hpc.2.1, hpc.2.2] at hg
        rw [step_reset cfg w i s hcase]
        right
        refine ⟨hmu, i, ?_, ?_⟩
        · intro j hj
          simp [Function.update_noteq hj, hothers j hj]
        · simp only [Function.update_same]
          cases he : packages.errorOf w with
          | some err =>
            simp only [PcInv]
            refine ⟨he.symm, ?_⟩
            rw [hg, hpost, he, packages.gaugeAfter_of_error cfg w [] err he]
          | none =>
            simp only [PcInv]
            exact ⟨he, hg⟩
      | packagesDone =>
        rw [hcase] at hpc
        simp only [PcInv] at hpc
        obtain ⟨he, hgs⟩ := hpc
        simp only [State.gauges, Prod.mk.injEq] at hgs
        have hg := ports.portCollect_gauges w s.st
        rw [hgs.1, hgs.2.1, hgs.2.2] at hg
        rw [step_packagesDone cfg w i s hcase]
        right
        refine ⟨hmu, i, ?_, ?_⟩
        · intro j hj
          simp [Function.update_noteq hj, hothers j hj]
        · simp only [Function.update_same, PcInv]
          refine ⟨he.symm, ?_⟩
          rw [hg, hpost, he]
      | returning err =>
        rw [hcase] at hpc
        simp only [PcInv] at hpc
        rw [step_returning cfg w i s err hcase]
        left
        refine ⟨rfl, ?_, Or.inr hpc.2⟩
        intro j
        by_cases hj : j = i
        · subst hj; simp
        · simp [Function.update_noteq hj, hothers j hj]
    · have hstep : step cfg w i s = s := by
        rw [step_idle cfg w i s (hothers i hi), hmu]
        rfl
      rw [hstep]
      right
      exact ⟨hmu, i0, hothers, hpc⟩

theorem Inv_run (cfg : Config) (w : Sources) (pre : GaugeVec × GaugeVec × GaugeVec)
    (sched : List Nat) :
    ∀ s : System, Inv cfg w pre (collector.Collect cfg w emptyState).1.gauges s →
      Inv cfg w pre (collector.Collect cfg w emptyState).1.gauges (run cfg w sched s) := by
  induction sched with
  | nil => intro s h; exact h
  | cons i rest ih =>
    intro s h
    exact ih _ (Inv_step cfg w pre i s h)

theorem Inv_init (cfg : Config) (w : Sources) (st : State) :
    Inv cfg w st.gauges (collector.Collect cfg w emptyState).1.gauges (init st) :=
  Or.inl ⟨rfl, fun _ => rfl, Or.inl rfl⟩

theorem run_cons (cfg : Config) (w : Sources) (i : Nat) (rest : List Nat) (s : System) :
    run cfg w (i :: rest) s = run cfg w rest (step cfg w i s) := rfl

theorem run_nil (cfg : Config) (w : Sources) (s : System) : run cfg w [] s = s := rfl

/-- A goroutine that runs alone from `c.mu.Lock()` on leaves the state that
`Collector.Collect` returns. -/
theorem run_single_goroutine (cfg : Config) (w : Sources) (st : State) :
    (run cfg w [0, 0, 0, 0, 0] (init st)).st = (collector.Collect cfg w st).1 := by
  have h1 : step cfg w 0 (init st) =
      ⟨true, st, Function.update (fun _ => Pc.idle) 0 Pc.locked⟩ := rfl
  rw [collector.engineCollect_state, run_cons, h1, run_cons, step_locked cfg w 0 _ (by simp),
    run_cons, step_reset cfg w 0 _ (by simp)]
  cases he : packages.errorOf w with
  | some err =>
    simp only
    rw [run_cons, step_returning cfg w 0 _ (some err) (by simp), run_cons,
      step_idle cfg w 0 _ (by simp), run_nil]
    simp
  | none =>
    simp only
    rw [run_cons, step_packagesDone cfg w 0 _ (by simp), run_cons,
      step_returning cfg w 0 _ none (by simp), run_nil]

/-- C7, counterexample: the goroutine of the periodic pass takes the mutex, resets the
gauges and runs the package step, the goroutine of `/refresh` waits for the mutex, and a
scrape then reads a package gauge already repopulated beside two port gauges still
empty, which is neither the contents before the pass nor the contents after it. -/
theorem scrape_observes_intermediate_state_counterexample :
    (run sampleConfig sampleSources [0, 0, 1, 0] (init staleState)).pc 1 = Pc.idle ∧
    scrape (run sampleConfig sampleSources [0, 0, 1, 0] (init staleState)) =
      ([(["bash".toList, "5.1".toList], 1)], [], []) ∧
    scrape (run sampleConfig sampleSources [0, 0, 1, 0] (init staleState)) ≠
      staleState.gauges ∧
    scrape (run sampleConfig sampleSources [0, 0, 1, 0] (init staleState)) ≠
      (collector.Collect sampleConfig sampleSources staleState).1.gauges := by
  refine ⟨by decide, by decide, by decide, by decide⟩

/-- C7, amended: under every interleaving of the goroutines that call `Collect`, at most
one of them is between `c.mu.Lock()` and `c.mu.Unlock()`, and it is so exactly while the
mutex is held; and a scrape taken while the mutex is free reads either the gauges as
they were before the first pass or the complete gauges of a pass. -/
theorem passes_never_interleave (cfg : Config) (w : Sources) (st : State)
    (sched : List Nat) :
    (∀ i j, (run cfg w sched (init st)).pc i ≠ Pc.idle →
      (run cfg w sched (init st)).pc j ≠ Pc.idle → i = j) ∧
    ((run cfg w sched (init st)).mu = true ↔ ∃ i, (run cfg w sched (init st)).pc i ≠ Pc.idle) ∧
    ((run cfg w sched (init st)).mu = false →
      scrape (run cfg w sched (init st)) = st.gauges ∨
      scrape (run cfg w sched (init st)) = (collector.Collect cfg w st).1.gauges) := by
  have hinv := Inv_run cfg w st.gauges sched (init st) (Inv_init cfg w st)
  have hsame : (collector.Collect cfg w st).1.gauges =
      (collector.Collect cfg w emptyState).1.gauges := by
    rw [collector.engineCollect_gauges, collector.engineCollect_gauges]
  rcases hinv with ⟨hmu, hidle, hg⟩ | ⟨hmu, i0, hothers, hpc⟩
  · refine ⟨?_, ?_, ?_⟩
    · intro i j hi _
      exact absurd (hidle i) hi
    · rw [hmu]
      simp [hidle]
    · intro _
      rw [hsame]
      exact hg
  · have hne : (run cfg w sched (init st)).pc i0 ≠ Pc.idle := by
      intro h0
      rw [h0] at hpc
      exact hpc
    refine ⟨?_, ?_, ?_⟩
    · intro i j hi hj
      have h1 : i = i0 := by
        by_contra hne1
        exact hi (hothers i hne1)
      have h2 : j = i0 := by
        by_contra hne2
        exact hj (hothers j hne2)
      rw [h1, h2]
    · rw [hmu]
      simp only [true_iff]
      exact ⟨i0, hne⟩
    · intro hfree
      rw [hmu] at hfree
      cases hfree

/-- Witness of C7: after the periodic pass of the sample host has run to its end, the
`/refresh` goroutine having waited, the mutex is free and a scrape reads the complete
gauges of the pass. -/
theorem passes_never_interleave_witness :
    (run sampleConfig sampleSources [0, 0, 1, 0, 0, 0] (init staleState)).mu = false ∧
    (scrape (run sampleConfig sampleSources [0, 0, 1, 0, 0, 0] (init staleState)) =
        staleState.gauges ∨
      scrape (run sampleConfig sampleSources [0, 0, 1, 0, 0, 0] (init staleState)) =
        (collector.Collect sampleConfig sampleSources staleState).1.gauges) :=
  ⟨by decide,
    (passes_never_interleave sampleConfig sampleSources staleState [0, 0, 1, 0, 0, 0]).2.2
      (by decide)⟩

end concurrent
